import Mathlib

/-!
Shallow embedding of the spatial weights container of
`src/pysal/weights/weights.py`: the `W` class (adjacency store, lazily
cached derived statistics, weight-transformation state machine, mutable
observation order) and the thin sparse proxy `WSP`, together with
theorems settling the specification's claims against this embedding.

Modelling conventions:
* Python float arithmetic is modelled by exact rational arithmetic
  (`ℚ`).  In this model division by zero yields `0`, whereas Python
  raises `ZeroDivisionError`; every concrete input used below avoids
  division by zero, and no theorem depends on the convention.
* `math.sqrt` (used only inside the variance-stabilizing "V" transform)
  and `numpy.std` (used only by the `sd` property) have no exact
  rational counterpart, so the development is parameterised over
  arbitrary functions `sq : ℚ → ℚ` and `nstd : List ℕ → ℚ` standing for
  them; the theorems below hold for every choice, hence in particular
  for the real square root and standard deviation.
* Python dictionaries are modelled as association lists: lookup returns
  the first binding, assignment replaces the first binding in place (or
  appends a new one), mirroring key-identity semantics of `dict`.
* The `_cache` dictionary holds heterogeneous values; these are
  modelled by the inductive `CVal`.  Instance attributes that back the
  cache and survive `_reset` (`_n`, `_mean_neighbors`) are modelled as
  explicit state fields where their staleness is observable.
-/

namespace PW

/-- Association-list lookup modelling Python dictionary access `d[k]`:
first matching binding wins. -/
def lookA {κ α : Type} [DecidableEq κ] : List (κ × α) → κ → Option α
  | [], _ => none
  | p :: l, k => if p.1 = k then some p.2 else lookA l k

/-- Association-list update modelling Python dictionary assignment
`d[k] = v`: replaces the first binding of `k` in place, else appends. -/
def updA {κ α : Type} [DecidableEq κ] : List (κ × α) → κ → α → List (κ × α)
  | [], k, v => [(k, v)]
  | p :: l, k, v => if p.1 = k then (k, v) :: l else p :: updA l k v

/-- Values stored in the `_cache` dictionary of `W`; one constructor per
Python value shape that the source puts into the cache. -/
inductive CVal : Type
  | rat (q : ℚ)
  | rlist (l : List ℚ)
  | cnt (n : ℕ)
  | npairs (l : List (ℕ × ℕ))
  | nlist (l : List ℕ)
  | offs (l : List (ℕ × List ℕ))
  | ents (n : ℕ) (l : List (ℕ × ℕ × ℚ))
  deriving DecidableEq

/-- State of a `W` instance (the fields set by `W.__init__` and mutated
by its methods).  `nAttr` models the `_n` attribute and `meanAttr` the
`_mean_neighbors` attribute: attributes survive `_reset` (which clears
only the `_cache` dictionary). -/
structure WState : Type where
  neighbors : List (ℕ × List ℕ)
  weights : List (ℕ × List ℚ)
  transformations : List (String × List (ℕ × List ℚ))
  transform : String
  id_order : List ℕ
  id_order_set : Bool
  cache : List (String × CVal)
  nAttr : ℕ
  meanAttr : Option ℚ
  deriving DecidableEq

/-- Default weights built when the `weights` argument is falsy:
`[1.] * len(neighbors[key])` for every key of `neighbors`. -/
def defaultWeights (nb : List (ℕ × List ℕ)) : List (ℕ × List ℚ) :=
  nb.map (fun p => (p.1, List.replicate p.2.length (1 : ℚ)))

/-- `W.__init__(neighbors, weights=None, id_order=None)`.  Stores the
original weights under key "O" of the transform registry, installs the
supplied observation order verbatim (no validation), else sorts the
neighbor keys.  `_reset` leaves an empty cache; `_n` is set to
`len(self.weights)`. -/
def mkW (nb : List (ℕ × List ℕ)) (w : Option (List (ℕ × List ℚ)))
    (io : Option (List ℕ)) : WState :=
  let w0 := match w with
    | none => defaultWeights nb
    | some wl => if wl = [] then defaultWeights nb else wl
  { neighbors := nb
    weights := w0
    transformations := [("O", w0)]
    transform := "O"
    id_order := match io with
      | none => List.insertionSort (· ≤ ·) (nb.map Prod.fst)
      | some o => o
    id_order_set := io.isSome
    cache := []
    nAttr := w0.length
    meanAttr := none }

/-- `self.neighbors[id]` (empty on a missing key, where Python would
raise `KeyError`; all theorems below avoid missing keys). -/
def nbrsOf (s : WState) (id : ℕ) : List ℕ := (lookA s.neighbors id).getD []

/-- `self.weights[id]` (empty on a missing key). -/
def wtsOf (s : WState) (id : ℕ) : List ℚ := (lookA s.weights id).getD []

/-- The `id2i` dictionary: `_id2i[id] = i` for `i, id` in
`enumerate(_id_order)`.  A later write to the same id wins in a Python
dict, hence the reverse (association-list lookup takes the first
binding). -/
def id2iVal (order : List ℕ) : List (ℕ × ℕ) :=
  (order.enum.map (fun p => (p.2, p.1))).reverse

/-- Position of an id in the current observation order, via `id2i`. -/
def posOf (order : List ℕ) (id : ℕ) : ℕ := (lookA (id2iVal order) id).getD 0

/-- Value of `neighbor_offsets`: per id, the offsets of its neighbors in
the current observation order. -/
def offsetsVal (s : WState) : List (ℕ × List ℕ) :=
  s.neighbors.map (fun p => (p.1, p.2.map (posOf s.id_order)))

/-- Value of `cardinalities`: built iterating `_id_order` (`c[i] =
len(self.neighbors[i])`); duplicate order entries collapse in the
Python dict, hence the `dedup`. -/
def cardsVal (s : WState) : List (ℕ × ℕ) :=
  s.id_order.dedup.map (fun i => (i, (nbrsOf s i).length))

/-- Entry list of the sparse matrix built by `_build_sparse`: one
`(row, col, weight)` triple per declared edge, rows and columns being
offsets in the current observation order.  Duplicated coordinates are
legal and are summed by the CSR constructor (see `matOf`). -/
def buildEntriesVal (s : WState) : List (ℕ × ℕ × ℚ) :=
  (offsetsVal s).flatMap (fun p =>
    (p.2.zip (wtsOf s p.1)).map (fun cd => (posOf s.id_order p.1, cd.1, cd.2)))

/-- Matrix entry `(i, j)` of a CSR matrix built from coordinate triples:
the sum of the data of all triples at that coordinate (scipy sums
duplicates). -/
def matOf : List (ℕ × ℕ × ℚ) → ℕ → ℕ → ℚ
  | [], _, _ => 0
  | e :: l, i, j => (if e.1 = i ∧ e.2.1 = j then e.2.2 else 0) + matOf l i j

/-- Row sum of the `n` by `n` matrix. -/
def rowSum (n : ℕ) (L : List (ℕ × ℕ × ℚ)) (i : ℕ) : ℚ :=
  ∑ j ∈ Finset.range n, matOf L i j

/-- Column sum of the `n` by `n` matrix. -/
def colSum (n : ℕ) (L : List (ℕ × ℕ × ℚ)) (j : ℕ) : ℚ :=
  ∑ i ∈ Finset.range n, matOf L i j

/-- `sparse.sum()`: total sum of all matrix entries. -/
def s0v (n : ℕ) (L : List (ℕ × ℕ × ℚ)) : ℚ :=
  ∑ i ∈ Finset.range n, rowSum n L i

/-- `s1`: half the sum of the squared entries of `transpose(W) + W`. -/
def s1v (n : ℕ) (L : List (ℕ × ℕ × ℚ)) : ℚ :=
  (∑ i ∈ Finset.range n, ∑ j ∈ Finset.range n,
    (matOf L j i + matOf L i j) ^ 2) / 2

/-- `s2array`: per row, the square of row sum plus column sum. -/
def s2arrayv (n : ℕ) (L : List (ℕ × ℕ × ℚ)) : List ℚ :=
  (List.range n).map (fun i => (rowSum n L i + colSum n L i) ^ 2)

/-- `s2 = s2array.sum()`. -/
def s2vv (n : ℕ) (L : List (ℕ × ℕ × ℚ)) : ℚ := (s2arrayv n L).sum

/-- Diagonal of `W * W`. -/
def diagW2v (n : ℕ) (L : List (ℕ × ℕ × ℚ)) : List ℚ :=
  (List.range n).map (fun i => ∑ k ∈ Finset.range n, matOf L i k * matOf L k i)

/-- Trace of `W * W`. -/
def trcW2v (n : ℕ) (L : List (ℕ × ℕ × ℚ)) : ℚ := (diagW2v n L).sum

/-- Diagonal of `transpose(W) * W`. -/
def diagWtWv (n : ℕ) (L : List (ℕ × ℕ × ℚ)) : List ℚ :=
  (List.range n).map (fun i => ∑ k ∈ Finset.range n, matOf L k i * matOf L k i)

/-- Trace of `transpose(W) * W`. -/
def trcWtWv (n : ℕ) (L : List (ℕ × ℕ × ℚ)) : ℚ := (diagWtWv n L).sum

/-- Diagonal of `transpose(W) * W + W * W`. -/
def diagWtW_WWv (n : ℕ) (L : List (ℕ × ℕ × ℚ)) : List ℚ :=
  (List.range n).map (fun i =>
    ∑ k ∈ Finset.range n, (matOf L k i * matOf L k i + matOf L i k * matOf L k i))

/-- Trace of `transpose(W) * W + W * W`. -/
def trcWtW_WWv (n : ℕ) (L : List (ℕ × ℕ × ℚ)) : ℚ := (diagWtW_WWv n L).sum

/-- `sparse.nnz`: number of stored entries after duplicate coalescing
(explicit zeros are stored and counted). -/
def nnzv (L : List (ℕ × ℕ × ℚ)) : ℕ :=
  ((L.map (fun e => (e.1, e.2.1))).dedup).length

/-- `max(cardinalities.values())` (0 on an empty container, where
Python would raise). -/
def maxv (c : List (ℕ × ℕ)) : ℕ := (c.map Prod.snd).foldr max 0

/-- `min(cardinalities.values())` (0 on an empty container, where
Python would raise). -/
def minv (c : List (ℕ × ℕ)) : ℕ :=
  match c.map Prod.snd with
  | [] => 0
  | h :: t => t.foldr min h

/-- `np.mean(cardinalities.values())`. -/
def meanv (c : List (ℕ × ℕ)) : ℚ :=
  ((c.map Prod.snd).map (fun k => (k : ℚ))).sum / (c.length : ℚ)

/-- `islands`: ids of cardinality zero. -/
def islandsv (c : List (ℕ × ℕ)) : List ℕ :=
  (c.filter (fun p => p.2 == 0)).map Prod.fst

/-- The cardinality histogram: counts of ids per cardinality value, one
bin per value from the returned minimum to the returned maximum
(`np.histogram(values, range(mn, mx + 2))` zipped with the bin left
edges; integer data make the half-open bins exact counts). -/
def histv (c : List (ℕ × ℕ)) (mn mx : ℕ) : List (ℕ × ℕ) :=
  (List.range (mx + 1 - mn)).map (fun t =>
    (mn + t, ((c.map Prod.snd).filter (fun v => v == mn + t)).length))

/-- `asymmetry()`: coordinates where `transpose(W) - W` is nonzero, in
row-major order (the result of `np.nonzero`); empty when symmetric. -/
def asymsv (n : ℕ) (L : List (ℕ × ℕ × ℚ)) : List (ℕ × ℕ) :=
  (List.range n).flatMap (fun i =>
    ((List.range n).filter (fun j => decide (matOf L j i ≠ matOf L i j))).map
      (fun j => (i, j)))

/-! ### The lazily cached property getters

Each getter models one `@property` of `W`: it checks its cache key,
returns the stored value on a hit, and otherwise computes (possibly
through other getters, whose cache insertions it inherits), stores and
returns.  A cached value of an unexpected shape (impossible in any run
that only uses these operations) is answered with a default without
touching the state. -/

/-- `W.id2i` getter (cache key "id2i"). -/
def id2i_get (s : WState) : List (ℕ × ℕ) × WState :=
  match lookA s.cache "id2i" with
  | some (CVal.npairs l) => (l, s)
  | some _ => ([], s)
  | none =>
    let v := id2iVal s.id_order
    (v, { s with cache := updA s.cache "id2i" (CVal.npairs v) })

/-- `W.n` getter (cache key "n").  On a hit it returns the `_n`
attribute, faithfully to the source (`return self._n`). -/
def n_get (s : WState) : ℕ × WState :=
  match lookA s.cache "n" with
  | some _ => (s.nAttr, s)
  | none =>
    let v := s.neighbors.length
    (v, { s with nAttr := v, cache := updA s.cache "n" (CVal.cnt v) })

/-- `W.neighbor_offsets` getter (cache key "neighbors_0"); computes
through the `id2i` getter. -/
def offsets_get (s : WState) : List (ℕ × List ℕ) × WState :=
  match lookA s.cache "neighbors_0" with
  | some (CVal.offs l) => (l, s)
  | some _ => ([], s)
  | none =>
    let t := id2i_get s
    let v := t.2.neighbors.map (fun p => (p.1, p.2.map (fun nb => (lookA t.1 nb).getD 0)))
    (v, { t.2 with cache := updA t.2.cache "neighbors_0" (CVal.offs v) })

/-- `W.cardinalities` getter (cache key "cardinalities"). -/
def cards_get (s : WState) : List (ℕ × ℕ) × WState :=
  match lookA s.cache "cardinalities" with
  | some (CVal.npairs l) => (l, s)
  | some _ => ([], s)
  | none =>
    let v := cardsVal s
    (v, { s with cache := updA s.cache "cardinalities" (CVal.npairs v) })

/-- `W.sparse` getter (cache key "sparse"), computing `_build_sparse`:
it reads the `id2i`, `neighbor_offsets`, `cardinalities` and `n`
getters in source order (the cardinalities only fix the row-repetition
count, which always equals the offsets length, so they do not appear in
the entry computation) and stores the shape together with the entry
list. -/
def sparse_get (s : WState) : (ℕ × List (ℕ × ℕ × ℚ)) × WState :=
  match lookA s.cache "sparse" with
  | some (CVal.ents n l) => ((n, l), s)
  | some _ => ((0, []), s)
  | none =>
    let t1 := id2i_get s
    let t2 := offsets_get t1.2
    let t3 := cards_get t2.2
    let t4 := n_get t3.2
    let L := t2.1.flatMap (fun p =>
      (p.2.zip ((lookA t4.2.weights p.1).getD [])).map
        (fun cd => ((lookA t1.1 p.1).getD 0, cd.1, cd.2)))
    ((t4.1, L), { t4.2 with cache := updA t4.2.cache "sparse" (CVal.ents t4.1 L) })

/-- `W.s0` getter (cache key "s0"). -/
def s0_get (s : WState) : ℚ × WState :=
  match lookA s.cache "s0" with
  | some (CVal.rat q) => (q, s)
  | some _ => (0, s)
  | none =>
    let t := sparse_get s
    let v := s0v t.1.1 t.1.2
    (v, { t.2 with cache := updA t.2.cache "s0" (CVal.rat v) })

/-- `W.s1` getter (cache key "s1"). -/
def s1_get (s : WState) : ℚ × WState :=
  match lookA s.cache "s1" with
  | some (CVal.rat q) => (q, s)
  | some _ => (0, s)
  | none =>
    let t := sparse_get s
    let v := s1v t.1.1 t.1.2
    (v, { t.2 with cache := updA t.2.cache "s1" (CVal.rat v) })

/-- `W.s2array` getter (cache key "s2array"). -/
def s2array_get (s : WState) : List ℚ × WState :=
  match lookA s.cache "s2array" with
  | some (CVal.rlist l) => (l, s)
  | some _ => ([], s)
  | none =>
    let t := sparse_get s
    let v := s2arrayv t.1.1 t.1.2
    (v, { t.2 with cache := updA t.2.cache "s2array" (CVal.rlist v) })

/-- `W.s2` getter (cache key "s2"), computed as `self.s2array.sum()`. -/
def s2_get (s : WState) : ℚ × WState :=
  match lookA s.cache "s2" with
  | some (CVal.rat q) => (q, s)
  | some _ => (0, s)
  | none =>
    let t := s2array_get s
    let v := t.1.sum
    (v, { t.2 with cache := updA t.2.cache "s2" (CVal.rat v) })

/-- `W.diagW2` getter.  The source checks key "diagw2" but stores under
key "diagW2", so the check never hits (nothing writes "diagw2") and the
diagonal is recomputed on every access.  On the impossible hit Python
would return the stale `_diagW2` attribute; the model answers a
default. -/
def diagW2_get (s : WState) : List ℚ × WState :=
  match lookA s.cache "diagw2" with
  | some _ => ([], s)
  | none =>
    let t := sparse_get s
    let v := diagW2v t.1.1 t.1.2
    (v, { t.2 with cache := updA t.2.cache "diagW2" (CVal.rlist v) })

/-- `W.trcW2` getter.  The source checks key "trcW2" but stores under
key "trcw2", so the check never hits and the trace is recomputed on
every access. -/
def trcW2_get (s : WState) : ℚ × WState :=
  match lookA s.cache "trcW2" with
  | some _ => (0, s)
  | none =>
    let t := diagW2_get s
    let v := t.1.sum
    (v, { t.2 with cache := updA t.2.cache "trcw2" (CVal.rat v) })

/-- `W.diagWtW` getter (cache key "diagWtW"). -/
def diagWtW_get (s : WState) : List ℚ × WState :=
  match lookA s.cache "diagWtW" with
  | some (CVal.rlist l) => (l, s)
  | some _ => ([], s)
  | none =>
    let t := sparse_get s
    let v := diagWtWv t.1.1 t.1.2
    (v, { t.2 with cache := updA t.2.cache "diagWtW" (CVal.rlist v) })

/-- `W.trcWtW` getter (cache key "trcWtW"), via the `diagWtW` getter. -/
def trcWtW_get (s : WState) : ℚ × WState :=
  match lookA s.cache "trcWtW" with
  | some (CVal.rat q) => (q, s)
  | some _ => (0, s)
  | none =>
    let t := diagWtW_get s
    let v := t.1.sum
    (v, { t.2 with cache := updA t.2.cache "trcWtW" (CVal.rat v) })

/-- `W.diagWtW_WW` getter (cache key "diagWtW_WW"). -/
def diagWtW_WW_get (s : WState) : List ℚ × WState :=
  match lookA s.cache "diagWtW_WW" with
  | some (CVal.rlist l) => (l, s)
  | some _ => ([], s)
  | none =>
    let t := sparse_get s
    let v := diagWtW_WWv t.1.1 t.1.2
    (v, { t.2 with cache := updA t.2.cache "diagWtW_WW" (CVal.rlist v) })

/-- `W.trcWtW_WW` getter (cache key "trcWtW_WW"). -/
def trcWtW_WW_get (s : WState) : ℚ × WState :=
  match lookA s.cache "trcWtW_WW" with
  | some (CVal.rat q) => (q, s)
  | some _ => (0, s)
  | none =>
    let t := diagWtW_WW_get s
    let v := t.1.sum
    (v, { t.2 with cache := updA t.2.cache "trcWtW_WW" (CVal.rat v) })

/-- `W.pct_nonzero` getter (cache key "pct_nonzero"):
`sparse.nnz / (1. * _n ** 2)`, reading the `_n` attribute as left by
the sparse computation. -/
def pct_get (s : WState) : ℚ × WState :=
  match lookA s.cache "pct_nonzero" with
  | some (CVal.rat q) => (q, s)
  | some _ => (0, s)
  | none =>
    let t := sparse_get s
    let v := (nnzv t.1.2 : ℚ) / ((t.2.nAttr : ℚ) ^ 2)
    (v, { t.2 with cache := updA t.2.cache "pct_nonzero" (CVal.rat v) })

/-- `W.nonzero` getter (cache key "nonzero"). -/
def nonzero_get (s : WState) : ℕ × WState :=
  match lookA s.cache "nonzero" with
  | some (CVal.cnt n) => (n, s)
  | some _ => (0, s)
  | none =>
    let t := sparse_get s
    let v := nnzv t.1.2
    (v, { t.2 with cache := updA t.2.cache "nonzero" (CVal.cnt v) })

/-- `W.max_neighbors` getter (cache key "max_neighbors"). -/
def max_get (s : WState) : ℕ × WState :=
  match lookA s.cache "max_neighbors" with
  | some (CVal.cnt n) => (n, s)
  | some _ => (0, s)
  | none =>
    let t := cards_get s
    let v := maxv t.1
    (v, { t.2 with cache := updA t.2.cache "max_neighbors" (CVal.cnt v) })

/-- `W.min_neighbors` getter (cache key "min_neighbors"). -/
def min_get (s : WState) : ℕ × WState :=
  match lookA s.cache "min_neighbors" with
  | some (CVal.cnt n) => (n, s)
  | some _ => (0, s)
  | none =>
    let t := cards_get s
    let v := minv t.1
    (v, { t.2 with cache := updA t.2.cache "min_neighbors" (CVal.cnt v) })

/-- `W.mean_neighbors` getter.  The source checks key "max_neighbors"
(not "mean_neighbors"): on a hit of that foreign key it returns the
`_mean_neighbors` attribute, which may be unset (`none` models the
resulting `AttributeError`) or stale; on a miss it computes, stores the
attribute and caches under "mean_neighbors". -/
def mean_get (s : WState) : Option ℚ × WState :=
  match lookA s.cache "max_neighbors" with
  | some _ => (s.meanAttr, s)
  | none =>
    let t := cards_get s
    let v := meanv t.1
    (some v, { t.2 with
                 meanAttr := some v
                 cache := updA t.2.cache "mean_neighbors" (CVal.rat v) })

/-- `W.sd` getter (cache key "sd"); `nstd` stands for `np.std`. -/
def sd_get (nstd : List ℕ → ℚ) (s : WState) : ℚ × WState :=
  match lookA s.cache "sd" with
  | some (CVal.rat q) => (q, s)
  | some _ => (0, s)
  | none =>
    let t := cards_get s
    let v := nstd (t.1.map Prod.snd)
    (v, { t.2 with cache := updA t.2.cache "sd" (CVal.rat v) })

/-- `W.islands` getter (cache key "islands"). -/
def islands_get (s : WState) : List ℕ × WState :=
  match lookA s.cache "islands" with
  | some (CVal.nlist l) => (l, s)
  | some _ => ([], s)
  | none =>
    let t := cards_get s
    let v := islandsv t.1
    (v, { t.2 with cache := updA t.2.cache "islands" (CVal.nlist v) })

/-- `W.histogram` getter (cache key "histogram"); reads the
cardinalities, `min_neighbors` and `max_neighbors` getters in source
order. -/
def histogram_get (s : WState) : List (ℕ × ℕ) × WState :=
  match lookA s.cache "histogram" with
  | some (CVal.npairs l) => (l, s)
  | some _ => ([], s)
  | none =>
    let t1 := cards_get s
    let t2 := min_get t1.2
    let t3 := max_get t2.2
    let v := histv t1.1 t2.1 t3.1
    (v, { t3.2 with cache := updA t3.2.cache "histogram" (CVal.npairs v) })

/-- The `W.asymmetry()` method: reads the sparse getter and lists the
coordinates where the matrix differs from its transpose. -/
def asymmetry_fn (s : WState) : List (ℕ × ℕ) × WState :=
  let t := sparse_get s
  (asymsv t.1.1 t.1.2, t.2)

/-- `W.asymmetries` getter (cache key "asymmetries"). -/
def asym_get (s : WState) : List (ℕ × ℕ) × WState :=
  match lookA s.cache "asymmetries" with
  | some (CVal.npairs l) => (l, s)
  | some _ => ([], s)
  | none =>
    let t := asymmetry_fn s
    let v := t.1
    (v, { t.2 with cache := updA t.2.cache "asymmetries" (CVal.npairs v) })

/-- `W.__getitem__(key)`: `dict(zip(self.neighbors[key],
self.weights[key]))`, a pure read. -/
def getitem_get (s : WState) (key : ℕ) : List (ℕ × ℚ) × WState :=
  ((nbrsOf s key).zip (wtsOf s key), s)

/-- Iteration over `W`: the `_W_iter` object yields
`self[w._id_order[idx]]` for `idx = 0 .. n-1`, with the index state held
on the fresh iterator object, so iteration reads the container
without mutating it. -/
def iter_get (s : WState) : List (List (ℕ × ℚ)) × WState :=
  (s.id_order.map (fun id => (nbrsOf s id).zip (wtsOf s id)), s)

/-- `W.get_transform`. -/
def getTransform (s : WState) : String := s.transform

/-- Python `value.upper()`, modelled character-wise. -/
def upperS (v : String) : String := String.mk (v.data.map Char.toUpper)

/-- `W.set_transform(value)`: upper-cases the value, unconditionally
records it as the current transform designation, then either swaps in a
registered mapping, computes and registers one of the supported
transforms (`sq` stands for `math.sqrt` in the "V" branch), or — on an
unknown name — merely prints a message, leaving everything but the
designation untouched.  Every mutating branch ends with `_reset`
(i.e. an empty cache).  The "O" `elif` branch of the source is dead
(key "O" is always registered at construction) but is modelled
faithfully. -/
def setTransform (sq : ℚ → ℚ) (s : WState) (value : String) : WState :=
  let v := upperS value
  let s1 := { s with transform := v }
  match lookA s1.transformations v with
  | some wm => { s1 with weights := wm, cache := [] }
  | none =>
    if v = "R" then
      let wm := s1.weights.map (fun p => (p.1, p.2.map (fun w => w / p.2.sum)))
      { s1 with
          transformations := updA s1.transformations v wm
          weights := wm
          cache := [] }
    else if v = "D" then
      let t := s0_get { s1 with cache := [] }
      let ws := 1 / t.1
      let wm := t.2.weights.map (fun p => (p.1, p.2.map (fun w => w * ws)))
      { t.2 with
          transformations := updA t.2.transformations v wm
          weights := wm
          cache := [] }
    else if v = "B" then
      let wm := s1.weights.map (fun p => (p.1, p.2.map (fun _ => (1 : ℚ))))
      { s1 with
          transformations := updA s1.transformations v wm
          weights := wm
          cache := [] }
    else if v = "V" then
      let t := cards_get s1
      let nrm := fun (wl : List ℚ) =>
        wl.map (fun w => w / sq ((wl.map (fun x => x * x)).sum))
      let Q := (t.2.weights.map (fun p => (nrm p.2).sum)).sum
      let t2 := n_get t.2
      let nQ := (t2.1 : ℚ) / Q
      let wm := t2.2.weights.map (fun p => (p.1, (nrm p.2).map (fun w => w * nQ)))
      { t2.2 with
          transformations := updA t2.2.transformations v wm
          weights := wm
          cache := [] }
    else if v = "O" then
      { s1 with weights := (lookA s1.transformations v).getD [], cache := [] }
    else s1

/-- A sequence of `set_transform` calls, applied left to right. -/
def applyTransforms (sq : ℚ → ℚ) (s : WState) (seq : List String) : WState :=
  seq.foldl (setTransform sq) s

/-- The `id_order` property setter (`W.__set_id_order`): the new order
is compared, as a set, against the set of the *current* `_id_order`; on
agreement the order is installed, `id_order_set` raised and the cache
cleared, otherwise an exception is raised and nothing is mutated. -/
def setIdOrder (s : WState) (ids : List ℕ) : Except String WState :=
  if s.id_order.toFinset = ids.toFinset then
    Except.ok { s with id_order := ids, id_order_set := true, cache := [] }
  else
    Except.error "ordered_ids do not align with W ids"

/-! ### The thin sparse proxy `WSP`

`WSP.__init__` builds the CSR matrix directly from coordinate data
(unit weights when the `weights` argument is falsy).  Its two cached
statistics are pure functions of the matrix, with the same formulas as
the `W` properties; the `_cache` memoisation is value-irrelevant and is
not replayed here. -/

structure WSPState : Type where
  n : ℕ
  entries : List (ℕ × ℕ × ℚ)
  deriving DecidableEq

/-- `WSP(n, row, col, weights=[])`. -/
def mkWSP (n : ℕ) (row col : List ℕ) (weights : List ℚ) : WSPState :=
  let w := if weights = [] then List.replicate row.length (1 : ℚ) else weights
  { n := n, entries := (row.zip (col.zip w)).map (fun p => (p.1, p.2.1, p.2.2)) }

/-- `WSP.s0`. -/
def wspS0 (w : WSPState) : ℚ := s0v w.n w.entries

/-- `WSP.diagWtW_WW`. -/
def wspDiagWtW_WW (w : WSPState) : List ℚ := diagWtW_WWv w.n w.entries

/-- `WSP.trcWtW_WW`. -/
def wspTrcWtW_WW (w : WSPState) : ℚ := (wspDiagWtW_WW w).sum

/-! ### Frame and consistency predicates for the cache layer -/

/-- The externally observable structural fields coincide. -/
def coreEq (s t : WState) : Prop :=
  t.neighbors = s.neighbors ∧ t.weights = s.weights ∧
  t.id_order = s.id_order ∧ t.transform = s.transform

/-- Cache evolution is gain-only: every binding present before is still
present, with the same value, afterwards. -/
def gainOnly (c c' : List (String × CVal)) : Prop :=
  ∀ k v, lookA c k = some v → lookA c' k = some v

/-- Effect contract of a read-only query: structural fields untouched
and cache evolution gain-only. -/
def FrameOf (s t : WState) : Prop := coreEq s t ∧ gainOnly s.cache t.cache

/-- All fields other than the memo layer (`cache`, `nAttr`, `meanAttr`)
coincide; getters change at most the memo layer. -/
def structEq (s t : WState) : Prop :=
  t.neighbors = s.neighbors ∧ t.weights = s.weights ∧
  t.transformations = s.transformations ∧ t.transform = s.transform ∧
  t.id_order = s.id_order ∧ t.id_order_set = s.id_order_set

/-- Cache evolution touching only the keys in `K`: every other binding
reads back unchanged. -/
def cacheSame (K : List String) (c c' : List (String × CVal)) : Prop :=
  ∀ k, k ∉ K → lookA c' k = lookA c k

/-- The value a consistent cache may hold at a given key, for the keys
that some getter either reads through a recomputation or can overwrite
(the mis-keyed `diagW2`/`trcW2` pair and `mean_neighbors`); `none` puts
no constraint on the key. -/
def specCVal (s : WState) (κ : String) : Option CVal :=
  if κ = "id2i" then some (CVal.npairs (id2iVal s.id_order))
  else if κ = "neighbors_0" then some (CVal.offs (offsetsVal s))
  else if κ = "cardinalities" then some (CVal.npairs (cardsVal s))
  else if κ = "sparse" then
    some (CVal.ents s.neighbors.length (buildEntriesVal s))
  else if κ = "diagW2" then
    some (CVal.rlist (diagW2v s.neighbors.length (buildEntriesVal s)))
  else if κ = "trcw2" then
    some (CVal.rat (trcW2v s.neighbors.length (buildEntriesVal s)))
  else if κ = "mean_neighbors" then some (CVal.rat (meanv (cardsVal s)))
  else none

/-- Consistency of the cache with the current structural state: a
cached `n` implies the `_n` attribute agrees with the neighbor count,
the never-written key "diagw2" is indeed absent, and every cached
binding with a specified value holds exactly that value.  These hold in
every state reachable by the modelled operations (cache bindings are
only ever created by the getters themselves from the current state, and
every mutation clears the cache), and are what makes a recomputation
reproduce a stored value. -/
def CacheOK (s : WState) : Prop :=
  (∀ v, lookA s.cache "n" = some v → s.nAttr = s.neighbors.length) ∧
  lookA s.cache "diagw2" = none ∧
  (∀ κ v, lookA s.cache κ = some v → ∀ u, specCVal s κ = some u → v = u)

/-! ### Alignment invariant (construction contract of spec section 6) -/

/-- Two mappings carry the same ids, with aligned per-id lengths: every
neighbor entry has a weights entry of the same length, and every
weights entry has a neighbor entry.  (Stated over the entries so that
it is decidable on concrete mappings.) -/
def AlignedMaps (nb : List (ℕ × List ℕ)) (wm : List (ℕ × List ℚ)) : Prop :=
  (∀ p ∈ nb, (lookA wm p.1).map List.length = some p.2.length) ∧
  (∀ q ∈ wm, (lookA nb q.1).isSome)

/-- Invariant carried through every `set_transform`: the current
weights and every registered mapping are aligned with `neighbors`, and
some mapping is registered under "O". -/
def WInv (s : WState) : Prop :=
  AlignedMaps s.neighbors s.weights ∧
  (∀ p ∈ s.transformations, AlignedMaps s.neighbors p.2) ∧
  (lookA s.transformations "O").isSome

/-! ### Higher-order contiguity, modelled from the spec

The source delegates `order`, `shimbel` and `higher_order` to the
`util` module, which is not part of this repository snapshot; the
algorithm below is therefore modelled from the specification (spec
section 4.4): iterate powers of the binary adjacency structure,
assigning each pair `(i, j)` to the smallest power `p ∈ 1..k` whose
matrix power is nonzero at `(i, j)` (never re-assigned at a larger
power), exclude the diagonal, and emit the pairs assigned exactly `k`
with unit weights. -/

/-- Modelled from the spec: the key set, i.e. the graph vertices. -/
def keysW (s : WState) : List ℕ := s.neighbors.map Prod.fst

/-- Modelled from the spec: binary adjacency — `j` listed among the
neighbors of `i` (weights irrelevant). -/
def adjB (s : WState) (i j : ℕ) : Bool := decide (j ∈ nbrsOf s i)

/-- Modelled from the spec (the `util.order`/`util.higher_order` code
is missing from this snapshot): `walkB p i j` holds when the `p`-th
power of the binary adjacency matrix is nonzero at `(i, j)`, i.e. when
some walk of length exactly `p` joins `i` to `j`. -/
def walkB (s : WState) : ℕ → ℕ → ℕ → Bool
  | 0, i, j => i == j
  | p + 1, i, j => (keysW s).any (fun m => adjB s i m && walkB s p m j)

/-- Modelled from the spec: the order that the masking power iteration
assigns to the pair `(i, j)` — the smallest `p ∈ 1..k` with a nonzero
matrix-power entry. -/
def minOrder (s : WState) (k i j : ℕ) : Option ℕ :=
  (List.range' 1 k).find? (fun p => walkB s p i j)

/-- Modelled from the spec: the neighbor mapping produced by
`higher_order(k)` — for each id, the ids assigned order exactly `k`,
diagonal excluded. -/
def higherOrderNbrs (s : WState) (k : ℕ) : List (ℕ × List ℕ) :=
  (keysW s).map (fun i =>
    (i, (keysW s).filter (fun j => decide (j ≠ i ∧ minOrder s k i j = some k))))

/-- Modelled from the spec: `higher_order(k)` builds a brand-new
container from that mapping, with (default) unit weights. -/
def higherOrder (s : WState) (k : ℕ) : WState :=
  mkW (higherOrderNbrs s k) none none

/-- Reference notion for the graph claims: ids reachable from `i` by a
breadth-first expansion of at most `d` steps (`j` is at shortest-path
distance exactly `k` from `i` when it is reachable within `k` steps but
not within fewer). -/
def reachLe (s : WState) : ℕ → ℕ → List ℕ
  | 0, i => [i]
  | d + 1, i =>
    let r := reachLe s d i
    (r ++ r.flatMap (fun m => nbrsOf s m)).dedup

/-- Well-formedness for the graph claims: adjacency lists only point at
keys. -/
def ClosedGraph (s : WState) : Prop :=
  ∀ p ∈ s.neighbors, ∀ j ∈ p.2, j ∈ keysW s

/-! ## Theorems -/

/-- Dictionary assignment then lookup: the assigned key reads back the
new value, every other key is untouched. -/
theorem lookA_updA {κ α : Type} [DecidableEq κ] (l : List (κ × α)) (k k' : κ)
    (v : α) : lookA (updA l k v) k' = if k = k' then some v else lookA l k' := by
  induction l with
  | nil => simp [updA, lookA]
  | cons p l ih =>
    simp only [updA]
    by_cases h1 : p.1 = k
    · simp only [if_pos h1, lookA]
      by_cases h2 : k = k'
      · simp [h2]
      · have h3 : p.1 ≠ k' := fun h => h2 (h1.symm.trans h)
        simp [lookA, h2, h3]
    · simp only [if_neg h1, lookA]
      by_cases h2 : p.1 = k'
      · have h3 : k ≠ k' := fun h => h1 (h2.trans h.symm)
        simp [lookA, h2, h3]
      · simp [lookA, h2, ih]

/-- C1: every successful weights mutation — a `set_transform` call that
hits the registry or one of the supported branches (R, D, B, V, O) —
and every successful `id_order` assignment leave the derived-statistics
cache entirely empty on return; the cache is never partially
invalidated, so no previously cached derived value can be observed
paired with the new weights or the new order. -/
theorem c1_mutations_clear_cache :
    (∀ (sq : ℚ → ℚ) (s : WState) (value : String),
      ((lookA s.transformations (upperS value)).isSome ∨
        upperS value = "R" ∨ upperS value = "D" ∨ upperS value = "B" ∨
        upperS value = "V" ∨ upperS value = "O") →
      (setTransform sq s value).cache = []) ∧
    (∀ (s : WState) (ids : List ℕ) (t : WState),
      setIdOrder s ids = Except.ok t → t.cache = []) := by
  constructor
  · intro sq s value h
    unfold setTransform
    dsimp only
    cases hl : lookA s.transformations (upperS value) with
    | some wm => rfl
    | none =>
      rcases h with h | h | h | h | h | h
      · simp [hl] at h
      all_goals simp [hl, h]
  · intro s ids t h
    unfold setIdOrder at h
    split_ifs at h with hc
    cases h
    rfl

/-- Witness for C1 at concrete inputs: a registry-miss "r" transform
and a successful order reversal on a two-unit container. -/
theorem c1_mutations_clear_cache_witness :
    (setTransform (fun q => q) (mkW [(0, [1]), (1, [0])] none none) "r").cache
      = [] ∧
    (setIdOrder (mkW [(0, [1]), (1, [0])] none none) [1, 0]).map WState.cache
      = Except.ok [] := by
  constructor
  · exact c1_mutations_clear_cache.1 (fun q => q) _ "r" (Or.inr (Or.inl (by decide)))
  · have hc : (mkW [(0, [1]), (1, [0])] none none).id_order.toFinset
        = ([1, 0] : List ℕ).toFinset := by decide
    have h : setIdOrder (mkW [(0, [1]), (1, [0])] none none) [1, 0]
        = Except.ok { mkW [(0, [1]), (1, [0])] none none with
                        id_order := [1, 0]
                        id_order_set := true
                        cache := [] } := by
      rw [setIdOrder, if_pos hc]
    rw [h, Except.map, c1_mutations_clear_cache.2 _ _ _ h]

/-- C2 counterexample: on a fresh two-unit container (whose transform
designation is "O"), `set_transform("X")` — an unsupported name —
changes the value returned by `get_transform` to "X", so the container
state is not left unchanged as the claim asserts. -/
theorem c2_counterexample :
    getTransform (setTransform (fun q => q)
      (mkW [(0, [1]), (1, [0])] none none) "X")
      ≠ getTransform (mkW [(0, [1]), (1, [0])] none none) := by decide

/-- C2 amended: an unsupported transform name is reported without an
exception and leaves the weights mapping, the registered transforms and
the cache unchanged, but the current transform designation is
unconditionally overwritten with the upper-cased requested value before
the name is examined, so `get_transform` subsequently returns the
unsupported name rather than the previous designation. -/
theorem c2_unknown_transform_keeps_weights (sq : ℚ → ℚ) (s : WState)
    (value : String)
    (h1 : lookA s.transformations (upperS value) = none)
    (h2 : upperS value ≠ "R") (h3 : upperS value ≠ "D")
    (h4 : upperS value ≠ "B") (h5 : upperS value ≠ "V")
    (h6 : upperS value ≠ "O") :
    (setTransform sq s value).weights = s.weights ∧
    (setTransform sq s value).transformations = s.transformations ∧
    (setTransform sq s value).cache = s.cache ∧
    getTransform (setTransform sq s value) = upperS value := by
  unfold setTransform getTransform
  simp [h1, h2, h3, h4, h5, h6]

/-- Witness for C2 at a concrete input: the name "x" upper-cases to the
unsupported "X" on a fresh two-unit container. -/
theorem c2_unknown_transform_keeps_weights_witness :
    (lookA (mkW [(0, [1]), (1, [0])] none none).transformations
        (upperS "x") = none ∧ upperS "x" ≠ "R" ∧ upperS "x" ≠ "D" ∧
      upperS "x" ≠ "B" ∧ upperS "x" ≠ "V" ∧ upperS "x" ≠ "O") ∧
    ((setTransform (fun q => q) (mkW [(0, [1]), (1, [0])] none none) "x").weights
        = (mkW [(0, [1]), (1, [0])] none none).weights ∧
      (setTransform (fun q => q) (mkW [(0, [1]), (1, [0])] none none) "x").transformations
        = (mkW [(0, [1]), (1, [0])] none none).transformations ∧
      (setTransform (fun q => q) (mkW [(0, [1]), (1, [0])] none none) "x").cache
        = (mkW [(0, [1]), (1, [0])] none none).cache ∧
      getTransform (setTransform (fun q => q)
        (mkW [(0, [1]), (1, [0])] none none) "x") = upperS "x") :=
  ⟨⟨by decide, by decide, by decide, by decide, by decide, by decide⟩,
    c2_unknown_transform_keeps_weights (fun q => q) _ "x" (by decide) (by decide)
      (by decide) (by decide) (by decide) (by decide)⟩

/-- C3 counterexample: constructing a two-unit container with the
explicit order `[7]` — not a permutation of the id set `{0, 1}` —
raises nothing and yields a fully built container that installs `[7]`
verbatim, contradicting the claimed construction-time
structural-mismatch error. -/
theorem c3_counterexample :
    (mkW [(0, [1]), (1, [0])] none (some [7])).id_order = [7] ∧
    (mkW [(0, [1]), (1, [0])] none (some [7])).id_order.toFinset ≠
      ((mkW [(0, [1]), (1, [0])] none (some [7])).neighbors.map Prod.fst).toFinset := by
  constructor
  · rfl
  · decide

/-- C3 amended: construction performs no validation of an explicitly
supplied observation order — any sequence, permutation of the id set or
not, is installed verbatim (and marks the order as user-set) with no
error raised; the permutation check runs only in the later `id_order`
property setter. -/
theorem c3_construction_skips_validation (nb : List (ℕ × List ℕ))
    (w : Option (List (ℕ × List ℚ))) (io : List ℕ) :
    (mkW nb w (some io)).id_order = io ∧
    (mkW nb w (some io)).id_order_set = true := ⟨rfl, rfl⟩

theorem structEq_refl (s : WState) : structEq s s :=
  ⟨rfl, rfl, rfl, rfl, rfl, rfl⟩

theorem structEq_trans {s t u : WState} (h1 : structEq s t)
    (h2 : structEq t u) : structEq s u :=
  ⟨h2.1.trans h1.1, h2.2.1.trans h1.2.1, h2.2.2.1.trans h1.2.2.1,
    h2.2.2.2.1.trans h1.2.2.2.1, h2.2.2.2.2.1.trans h1.2.2.2.2.1,
    h2.2.2.2.2.2.trans h1.2.2.2.2.2⟩

theorem id2i_get_structEq (s : WState) : structEq s (id2i_get s).2 := by
  unfold id2i_get
  split
  · exact structEq_refl s
  · exact structEq_refl s
  · exact ⟨rfl, rfl, rfl, rfl, rfl, rfl⟩

theorem n_get_structEq (s : WState) : structEq s (n_get s).2 := by
  unfold n_get
  split
  · exact structEq_refl s
  · exact ⟨rfl, rfl, rfl, rfl, rfl, rfl⟩

theorem offsets_get_structEq (s : WState) : structEq s (offsets_get s).2 := by
  unfold offsets_get
  split
  · exact structEq_refl s
  · exact structEq_refl s
  · exact structEq_trans (id2i_get_structEq s) ⟨rfl, rfl, rfl, rfl, rfl, rfl⟩

theorem cards_get_structEq (s : WState) : structEq s (cards_get s).2 := by
  unfold cards_get
  split
  · exact structEq_refl s
  · exact structEq_refl s
  · exact ⟨rfl, rfl, rfl, rfl, rfl, rfl⟩

theorem sparse_get_structEq (s : WState) : structEq s (sparse_get s).2 := by
  unfold sparse_get
  split
  · exact structEq_refl s
  · exact structEq_refl s
  · exact structEq_trans (id2i_get_structEq s)
      (structEq_trans (offsets_get_structEq _)
        (structEq_trans (cards_get_structEq _)
          (structEq_trans (n_get_structEq _) ⟨rfl, rfl, rfl, rfl, rfl, rfl⟩)))

theorem s0_get_structEq (s : WState) : structEq s (s0_get s).2 := by
  unfold s0_get
  split
  · exact structEq_refl s
  · exact structEq_refl s
  · exact structEq_trans (sparse_get_structEq s) ⟨rfl, rfl, rfl, rfl, rfl, rfl⟩

theorem s1_get_structEq (s : WState) : structEq s (s1_get s).2 := by
  unfold s1_get
  split
  · exact structEq_refl s
  · exact structEq_refl s
  · exact structEq_trans (sparse_get_structEq s) ⟨rfl, rfl, rfl, rfl, rfl, rfl⟩

theorem s2array_get_structEq (s : WState) : structEq s (s2array_get s).2 := by
  unfold s2array_get
  split
  · exact structEq_refl s
  · exact structEq_refl s
  · exact structEq_trans (sparse_get_structEq s) ⟨rfl, rfl, rfl, rfl, rfl, rfl⟩

theorem s2_get_structEq (s : WState) : structEq s (s2_get s).2 := by
  unfold s2_get
  split
  · exact structEq_refl s
  · exact structEq_refl s
  · exact structEq_trans (s2array_get_structEq s) ⟨rfl, rfl, rfl, rfl, rfl, rfl⟩

theorem diagW2_get_structEq (s : WState) : structEq s (diagW2_get s).2 := by
  unfold diagW2_get
  split
  · exact structEq_refl s
  · exact structEq_trans (sparse_get_structEq s) ⟨rfl, rfl, rfl, rfl, rfl, rfl⟩

theorem trcW2_get_structEq (s : WState) : structEq s (trcW2_get s).2 := by
  unfold trcW2_get
  split
  · exact structEq_refl s
  · exact structEq_trans (diagW2_get_structEq s) ⟨rfl, rfl, rfl, rfl, rfl, rfl⟩

theorem diagWtW_get_structEq (s : WState) : structEq s (diagWtW_get s).2 := by
  unfold diagWtW_get
  split
  · exact structEq_refl s
  · exact structEq_refl s
  · exact structEq_trans (sparse_get_structEq s) ⟨rfl, rfl, rfl, rfl, rfl, rfl⟩

theorem trcWtW_get_structEq (s : WState) : structEq s (trcWtW_get s).2 := by
  unfold trcWtW_get
  split
  · exact structEq_refl s
  · exact structEq_refl s
  · exact structEq_trans (diagWtW_get_structEq s) ⟨rfl, rfl, rfl, rfl, rfl, rfl⟩

theorem diagWtW_WW_get_structEq (s : WState) :
    structEq s (diagWtW_WW_get s).2 := by
  unfold diagWtW_WW_get
  split
  · exact structEq_refl s
  · exact structEq_refl s
  · exact structEq_trans (sparse_get_structEq s) ⟨rfl, rfl, rfl, rfl, rfl, rfl⟩

theorem trcWtW_WW_get_structEq (s : WState) :
    structEq s (trcWtW_WW_get s).2 := by
  unfold trcWtW_WW_get
  split
  · exact structEq_refl s
  · exact structEq_refl s
  · exact structEq_trans (diagWtW_WW_get_structEq s)
      ⟨rfl, rfl, rfl, rfl, rfl, rfl⟩

theorem pct_get_structEq (s : WState) : structEq s (pct_get s).2 := by
  unfold pct_get
  split
  · exact structEq_refl s
  · exact structEq_refl s
  · exact structEq_trans (sparse_get_structEq s) ⟨rfl, rfl, rfl, rfl, rfl, rfl⟩

theorem nonzero_get_structEq (s : WState) : structEq s (nonzero_get s).2 := by
  unfold nonzero_get
  split
  · exact structEq_refl s
  · exact structEq_refl s
  · exact structEq_trans (sparse_get_structEq s) ⟨rfl, rfl, rfl, rfl, rfl, rfl⟩

theorem max_get_structEq (s : WState) : structEq s (max_get s).2 := by
  unfold max_get
  split
  · exact structEq_refl s
  · exact structEq_refl s
  · exact structEq_trans (cards_get_structEq s) ⟨rfl, rfl, rfl, rfl, rfl, rfl⟩

theorem min_get_structEq (s : WState) : structEq s (min_get s).2 := by
  unfold min_get
  split
  · exact structEq_refl s
  · exact structEq_refl s
  · exact structEq_trans (cards_get_structEq s) ⟨rfl, rfl, rfl, rfl, rfl, rfl⟩

theorem mean_get_structEq (s : WState) : structEq s (mean_get s).2 := by
  unfold mean_get
  split
  · exact structEq_refl s
  · exact structEq_trans (cards_get_structEq s) ⟨rfl, rfl, rfl, rfl, rfl, rfl⟩

theorem sd_get_structEq (nstd : List ℕ → ℚ) (s : WState) :
    structEq s (sd_get nstd s).2 := by
  unfold sd_get
  split
  · exact structEq_refl s
  · exact structEq_refl s
  · exact structEq_trans (cards_get_structEq s) ⟨rfl, rfl, rfl, rfl, rfl, rfl⟩

theorem islands_get_structEq (s : WState) : structEq s (islands_get s).2 := by
  unfold islands_get
  split
  · exact structEq_refl s
  · exact structEq_refl s
  · exact structEq_trans (cards_get_structEq s) ⟨rfl, rfl, rfl, rfl, rfl, rfl⟩

theorem histogram_get_structEq (s : WState) :
    structEq s (histogram_get s).2 := by
  unfold histogram_get
  split
  · exact structEq_refl s
  · exact structEq_refl s
  · exact structEq_trans (cards_get_structEq s)
      (structEq_trans (min_get_structEq _)
        (structEq_trans (max_get_structEq _) ⟨rfl, rfl, rfl, rfl, rfl, rfl⟩))

theorem asymmetry_fn_structEq (s : WState) :
    structEq s (asymmetry_fn s).2 := by
  unfold asymmetry_fn
  exact sparse_get_structEq s

theorem asym_get_structEq (s : WState) : structEq s (asym_get s).2 := by
  unfold asym_get
  split
  · exact structEq_refl s
  · exact structEq_refl s
  · exact structEq_trans (asymmetry_fn_structEq s) ⟨rfl, rfl, rfl, rfl, rfl, rfl⟩

theorem s0_get_transformations (s : WState) :
    (s0_get s).2.transformations = s.transformations :=
  (s0_get_structEq s).2.2.1

theorem cards_get_transformations (s : WState) :
    (cards_get s).2.transformations = s.transformations :=
  (cards_get_structEq s).2.2.1

theorem n_get_transformations (s : WState) :
    (n_get s).2.transformations = s.transformations :=
  (n_get_structEq s).2.2.1

/-- Any `set_transform` call leaves the registry entry under "O"
untouched: the computing branches register only under their own keys
"R", "D", "B", "V". -/
theorem lookupO_setTransform (sq : ℚ → ℚ) (s : WState) (value : String) :
    lookA (setTransform sq s value).transformations "O"
      = lookA s.transformations "O" := by
  unfold setTransform
  dsimp only
  cases hl : lookA s.transformations (upperS value) with
  | some wm => rfl
  | none =>
    by_cases h1 : upperS value = "R"
    · simp [hl, h1, lookA_updA]
    · by_cases h2 : upperS value = "D"
      · simp [hl, h1, h2, lookA_updA, s0_get_transformations]
      · by_cases h3 : upperS value = "B"
        · simp [hl, h1, h2, h3, lookA_updA]
        · by_cases h4 : upperS value = "V"
          · simp [hl, h1, h2, h3, h4, lookA_updA, n_get_transformations,
              cards_get_transformations]
          · by_cases h5 : upperS value = "O"
            · simp [hl, h1, h2, h3, h4, h5]
            · simp [hl, h1, h2, h3, h4, h5]

/-- The "O" registry entry survives any sequence of `set_transform`
calls. -/
theorem lookupO_applyTransforms (sq : ℚ → ℚ) (seq : List String)
    (s : WState) :
    lookA (applyTransforms sq s seq).transformations "O"
      = lookA s.transformations "O" := by
  induction seq generalizing s with
  | nil => rfl
  | cons v seq ih =>
    show lookA (applyTransforms sq (setTransform sq s v) seq).transformations "O"
      = lookA s.transformations "O"
    rw [ih, lookupO_setTransform]

/-- C4: after any finite sequence of supported transform calls (drawn
from B, R, D, V), `set_transform("O")` restores the weights mapping to
exactly the mapping held at construction time: the original mapping is
stored in the registry under "O" at construction, never overwritten by
the computing branches (which register only under their own names), and
the "O" call is a registry hit that swaps it back in verbatim. -/
theorem c4_O_restores_construction_weights (sq : ℚ → ℚ)
    (nb : List (ℕ × List ℕ)) (w : Option (List (ℕ × List ℚ)))
    (io : Option (List ℕ)) (seq : List String)
    (hseq : ∀ v ∈ seq, v ∈ (["B", "R", "D", "V"] : List String)) :
    (setTransform sq (applyTransforms sq (mkW nb w io) seq) "O").weights
      = (mkW nb w io).weights := by
  have hO : lookA (applyTransforms sq (mkW nb w io) seq).transformations "O"
      = some (mkW nb w io).weights := by
    rw [lookupO_applyTransforms]
    simp [mkW, lookA]
  unfold setTransform
  dsimp only
  have hu : upperS "O" = "O" := by decide
  rw [hu, hO]

/-- Witness for C4: on a two-unit container, applying R then B and then
restoring "O" yields the construction-time unit weights. -/
theorem c4_O_restores_construction_weights_witness :
    (∀ v ∈ (["R", "B"] : List String), v ∈ (["B", "R", "D", "V"] : List String)) ∧
    (setTransform (fun q => q)
        (applyTransforms (fun q => q) (mkW [(0, [1]), (1, [0])] none none)
          ["R", "B"]) "O").weights
      = (mkW [(0, [1]), (1, [0])] none none).weights :=
  ⟨by decide,
    c4_O_restores_construction_weights (fun q => q) _ _ _ _ (by decide)⟩

/-- C8 counterexample: a container constructed with the (unvalidated)
observation order `[7]` has id set `{0, 1}`; assigning the order `[7]`
— whose element set differs from the id set — does not raise: the
setter compares against the set of the *current* order, not the id
set, so the assignment succeeds. -/
theorem c8_counterexample :
    ([7] : List ℕ).toFinset
        ≠ ((mkW [(0, [1]), (1, [0])] none (some [7])).neighbors.map Prod.fst).toFinset ∧
    (setIdOrder (mkW [(0, [1]), (1, [0])] none (some [7])) [7]).map WState.id_order
      = Except.ok [7] :=
  ⟨by decide, by rw [setIdOrder, if_pos (by decide)]; rfl⟩

/-- C8 amended: assigning an `ordered_ids` sequence whose element set
differs from the element set of the *current* observation order (which
equals the id set whenever the current order is a permutation of it, as
after any validated construction) raises the structural-mismatch error;
the raise happens before any mutation, so the previous order, the
weights and the cached values are untouched — in this pure model the
failed call returns only the error and no new state. -/
theorem c8_mismatched_order_raises (s : WState) (ids : List ℕ)
    (h : s.id_order.toFinset ≠ ids.toFinset) :
    setIdOrder s ids = Except.error "ordered_ids do not align with W ids" := by
  unfold setIdOrder
  rw [if_neg h]

/-- Witness for C8: assigning `[5]` on a fresh two-unit container is
rejected. -/
theorem c8_mismatched_order_raises_witness :
    (mkW [(0, [1]), (1, [0])] none none).id_order.toFinset
        ≠ ([5] : List ℕ).toFinset ∧
    setIdOrder (mkW [(0, [1]), (1, [0])] none none) [5]
      = Except.error "ordered_ids do not align with W ids" :=
  ⟨by decide, c8_mismatched_order_raises _ _ (by decide)⟩

theorem lookA_mem {κ α : Type} [DecidableEq κ] :
    ∀ {l : List (κ × α)} {k : κ} {v : α}, lookA l k = some v → (k, v) ∈ l := by
  intro l
  induction l with
  | nil => intro k v h; simp [lookA] at h
  | cons p l ih =>
    intro k v h
    simp only [lookA] at h
    split_ifs at h with hp
    · injection h with h2
      have : (k, v) = p := by rw [← hp, ← h2]
      rw [this]
      exact List.mem_cons_self p l
    · exact List.mem_cons_of_mem _ (ih h)

theorem lookA_eq_none_iff {κ α : Type} [DecidableEq κ] {l : List (κ × α)}
    {k : κ} : lookA l k = none ↔ ∀ p ∈ l, p.1 ≠ k := by
  induction l with
  | nil => simp [lookA]
  | cons p l ih =>
    by_cases hp : p.1 = k
    · simp [lookA, hp]
    · simp [lookA, hp, ih]

theorem lookA_map_value {κ α β : Type} [DecidableEq κ] (g : α → β) :
    ∀ (l : List (κ × α)) (k : κ),
      lookA (l.map (fun p => (p.1, g p.2))) k = (lookA l k).map g := by
  intro l
  induction l with
  | nil => intro k; rfl
  | cons p l ih => intro k; by_cases hp : p.1 = k <;> simp [lookA, hp, ih]

/-- An id occurring in the order has a position below the order
length. -/
theorem posOf_lt {order : List ℕ} {id : ℕ} (h : id ∈ order) :
    posOf order id < order.length := by
  cases hl : lookA (id2iVal order) id with
  | none =>
    exfalso
    obtain ⟨i, hi, hget⟩ := List.mem_iff_getElem.mp h
    have hmem : (i, id) ∈ order.enum :=
      List.mk_mem_enum_iff_getElem?.mpr (by simp [List.getElem?_eq_getElem hi, hget])
    have hmem2 : (id, i) ∈ id2iVal order := by
      unfold id2iVal
      rw [List.mem_reverse]
      exact List.mem_map.mpr ⟨(i, id), hmem, rfl⟩
    exact (lookA_eq_none_iff.mp hl) _ hmem2 rfl
  | some i =>
    have hmem : (id, i) ∈ id2iVal order := lookA_mem hl
    unfold id2iVal at hmem
    rw [List.mem_reverse] at hmem
    obtain ⟨q, hq, hqe⟩ := List.mem_map.mp hmem
    have hq1 : q.1 = i := congrArg Prod.snd hqe
    have hq2 : q.2 = id := congrArg Prod.fst hqe
    have : q ∈ order.enum := hq
    rw [List.mem_enum_iff_getElem?] at this
    have := List.getElem?_eq_some_iff.mp (hq2 ▸ this)
    obtain ⟨hlt, _⟩ := this
    simp [posOf, hl, ← hq1, hlt]

/-- Summing a flat map is summing the per-block sums. -/
theorem sum_flatMap_eq {α : Type} (h : α → List ℚ) :
    ∀ l : List α, (l.flatMap h).sum = (l.map (fun x => (h x).sum)).sum := by
  intro l
  induction l with
  | nil => rfl
  | cons x l ih => simp [List.flatMap_cons, List.sum_append, ih]

theorem sum_map_div (l : List ℚ) (c : ℚ) :
    (l.map (fun x => x / c)).sum = l.sum / c := by
  induction l with
  | nil => simp
  | cons x l ih => simp [ih, add_div]

/-- The total of all entries of the matrix equals the total of the
coordinate data, whenever every coordinate lies in range (the CSR
constructor enforces exactly this). -/
theorem s0v_eq_data_sum (n : ℕ) :
    ∀ L : List (ℕ × ℕ × ℚ), (∀ e ∈ L, e.1 < n ∧ e.2.1 < n) →
      s0v n L = (L.map (fun e => e.2.2)).sum := by
  intro L
  induction L with
  | nil => intro _; simp [s0v, rowSum, matOf]
  | cons e L ih =>
    intro h
    have he := h e (List.mem_cons_self e L)
    have hL : ∀ x ∈ L, x.1 < n ∧ x.2.1 < n :=
      fun x hx => h x (List.mem_cons_of_mem e hx)
    have hsplit : s0v n (e :: L)
        = (∑ i ∈ Finset.range n, ∑ j ∈ Finset.range n,
            if e.1 = i ∧ e.2.1 = j then e.2.2 else 0) + s0v n L := by
      simp only [s0v, rowSum, matOf]
      rw [← Finset.sum_add_distrib]
      refine Finset.sum_congr rfl fun i _ => ?_
      rw [← Finset.sum_add_distrib]
    rw [hsplit, ih hL, List.map_cons, List.sum_cons]
    congr 1
    have : ∀ i ∈ Finset.range n,
        (∑ j ∈ Finset.range n, if e.1 = i ∧ e.2.1 = j then e.2.2 else 0)
          = if e.1 = i then e.2.2 else 0 := by
      intro i _
      by_cases hi : e.1 = i
      · simp only [hi, true_and]
        rw [Finset.sum_ite_eq (Finset.range n) e.2.1 (fun _ => e.2.2)]
        simp [Finset.mem_range.mpr he.2]
      · simp [hi]
    rw [Finset.sum_congr rfl this,
      Finset.sum_ite_eq (Finset.range n) e.1 (fun _ => e.2.2)]
    simp [Finset.mem_range.mpr he.1]

/-- Value of the `s0` getter on a freshly reset container: the total of
the sparse matrix built from the current structural state. -/
theorem s0_get_empty_cache (s : WState) (hc : s.cache = []) :
    (s0_get s).1 = s0v s.neighbors.length (buildEntriesVal s) := by
  simp only [s0_get, sparse_get, id2i_get, offsets_get, cards_get, n_get,
    lookA, updA, hc, buildEntriesVal, offsetsVal, posOf, wtsOf]
  rfl

theorem sum_map_one {α : Type} (l : List α) :
    (l.map (fun _ => (1 : ℚ))).sum = (l.length : ℚ) := by
  induction l with
  | nil => simp
  | cons x l ih => simp [ih, add_comm]

/-- After a freshly computed row standardization (no memoized "R"
entry), `s0` equals the unit count, provided the container is
well-formed and every row sum is nonzero. -/
theorem s0_after_R (sq : ℚ → ℚ) (s : WState)
    (htrans : lookA s.transformations "R" = none)
    (hclosed : ∀ p ∈ s.neighbors, ∀ j ∈ p.2, j ∈ s.neighbors.map Prod.fst)
    (horder : s.id_order.Perm (s.neighbors.map Prod.fst))
    (halign : AlignedMaps s.neighbors s.weights)
    (hrows : ∀ p ∈ s.weights, p.2.sum ≠ 0) :
    (s0_get (setTransform sq s "R")).1 = (s.neighbors.length : ℚ) := by
  have hu : upperS "R" = "R" := by decide
  have hw : (setTransform sq s "R").weights
      = s.weights.map (fun p => (p.1, p.2.map (fun w => w / p.2.sum))) := by
    unfold setTransform; dsimp only; rw [hu, htrans]; simp
  have hnbr : (setTransform sq s "R").neighbors = s.neighbors := by
    unfold setTransform; dsimp only; rw [hu, htrans]; simp
  have hord : (setTransform sq s "R").id_order = s.id_order := by
    unfold setTransform; dsimp only; rw [hu, htrans]; simp
  have hcache : (setTransform sq s "R").cache = [] := by
    unfold setTransform; dsimp only; rw [hu, htrans]; simp
  have hmemorder : ∀ id ∈ s.neighbors.map Prod.fst,
      id ∈ (setTransform sq s "R").id_order := by
    intro id h; rw [hord]; exact horder.mem_iff.mpr h
  have hordlen : (setTransform sq s "R").id_order.length
      = s.neighbors.length := by
    rw [hord, horder.length_eq, List.length_map]
  -- every id's transformed weights row: defined, aligned, and summing to 1
  have hrow : ∀ q ∈ s.neighbors,
      (wtsOf (setTransform sq s "R") q.1).length = q.2.length ∧
      (wtsOf (setTransform sq s "R") q.1).sum = 1 := by
    intro q hq
    have h1 := halign.1 q hq
    cases hlw : lookA s.weights q.1 with
    | none => rw [hlw] at h1; exact absurd h1 (by simp)
    | some wl =>
      rw [hlw] at h1
      have hlen : wl.length = q.2.length := by
        simpa using h1
      have hmem : (q.1, wl) ∈ s.weights := lookA_mem hlw
      have hsum : wl.sum ≠ 0 := hrows _ hmem
      have hwts : wtsOf (setTransform sq s "R") q.1
          = wl.map (fun w => w / wl.sum) := by
        unfold wtsOf
        rw [hw, lookA_map_value (fun l => l.map (fun w => w / l.sum)) s.weights q.1,
          hlw]
        rfl
      refine ⟨?_, ?_⟩
      · rw [hwts, List.length_map, hlen]
      · rw [hwts, sum_map_div, div_self hsum]
  -- in-range coordinates
  have hrange : ∀ e ∈ buildEntriesVal (setTransform sq s "R"),
      e.1 < (setTransform sq s "R").neighbors.length ∧
      e.2.1 < (setTransform sq s "R").neighbors.length := by
    intro e he
    unfold buildEntriesVal offsetsVal at he
    rcases List.mem_flatMap.mp he with ⟨p, hp, hpe⟩
    rcases List.mem_map.mp hp with ⟨q, hq, rfl⟩
    rcases List.mem_map.mp hpe with ⟨cd, hcd, rfl⟩
    have hq' : q ∈ s.neighbors := by rw [hnbr] at hq; exact hq
    have hn1 : q.1 ∈ s.neighbors.map Prod.fst := List.mem_map_of_mem _ hq'
    have hcd1 := (List.mem_zip hcd).1
    constructor
    · have := posOf_lt (hmemorder _ hn1)
      rw [hordlen] at this
      rw [hnbr]
      exact this
    · rcases List.mem_map.mp hcd1 with ⟨j, hj, hjeq⟩
      have hjk : j ∈ s.neighbors.map Prod.fst := hclosed q hq' j hj
      have hlt := posOf_lt (hmemorder _ hjk)
      rw [hordlen] at hlt
      rw [hnbr]
      simpa [← hjeq] using hlt
  rw [s0_get_empty_cache _ hcache, s0v_eq_data_sum _ _ hrange]
  unfold buildEntriesVal offsetsVal
  rw [List.map_flatMap, List.flatMap_map, sum_flatMap_eq]
  have hper : ∀ q ∈ (setTransform sq s "R").neighbors,
      (List.map (fun e : ℕ × ℕ × ℚ => e.2.2)
        (List.map
          (fun cd : ℕ × ℚ =>
            (posOf (setTransform sq s "R").id_order
                (q.1, List.map (posOf (setTransform sq s "R").id_order) q.2).1,
              cd.1, cd.2))
          ((q.1, List.map (posOf (setTransform sq s "R").id_order) q.2).2.zip
            (wtsOf (setTransform sq s "R")
              (q.1, List.map (posOf (setTransform sq s "R").id_order) q.2).1)))).sum
      = (fun _ : ℕ × List ℕ => (1 : ℚ)) q := by
    intro q hq
    have hq' : q ∈ s.neighbors := by rw [hnbr] at hq; exact hq
    obtain ⟨hlen, hsum⟩ := hrow q hq'
    dsimp only
    rw [List.map_map]
    have hcomp : ((fun e : ℕ × ℕ × ℚ => e.2.2) ∘
        (fun cd : ℕ × ℚ =>
          (posOf (setTransform sq s "R").id_order q.1, cd.1, cd.2)))
        = Prod.snd := by
      funext cd; rfl
    rw [hcomp,
      List.map_snd_zip _ _ (le_of_eq (by rw [hlen, List.length_map]))]
    exact hsum
  rw [List.map_congr_left hper, sum_map_one, hnbr]

/-- C5 counterexample: a three-unit container whose unit 2 is an island
(no neighbors and hence an empty weight row, which row standardization
leaves empty without dividing).  After `transform = "R"`, `s0` is 2
while the unit count is 3, a discrepancy beyond any floating-point
tolerance. -/
theorem c5_counterexample :
    (s0_get (setTransform (fun q => q)
        (mkW [(0, [1]), (1, [0]), (2, [])] none none) "R")).1 = 2 ∧
    ((mkW [(0, [1]), (1, [0]), (2, [])] none none).neighbors.length : ℚ) = 3 := by
  have hu : upperS "R" = "R" := by decide
  have h1 : setTransform (fun q => q)
      (mkW [(0, [1]), (1, [0]), (2, [])] none none) "R"
      = { neighbors := [(0, [1]), (1, [0]), (2, [])]
          weights := [(0, [1]), (1, [1]), (2, [])]
          transformations := [("O", [(0, [1]), (1, [1]), (2, [])]),
            ("R", [(0, [1]), (1, [1]), (2, [])])]
          transform := "R"
          id_order := [0, 1, 2]
          id_order_set := false
          cache := []
          nAttr := 3
          meanAttr := none } := by
    simp [setTransform, hu, mkW, defaultWeights, lookA, updA,
      List.insertionSort, List.orderedInsert]
  constructor
  · rw [h1]
    simp [s0_get, sparse_get, id2i_get, offsets_get, cards_get, n_get,
      lookA, updA, s0v, rowSum, matOf, id2iVal, posOf, Finset.sum_range_succ]
    norm_num
  · norm_num [mkW]

/-- C5 amended: for every constructed container whose every unit's
weight list has a nonzero sum — in particular with no islands — setting
the transform to "R" makes `s0` equal the unit count `n` exactly (the
model computes in exact rationals, so no tolerance is needed).  With an
island present the row standardization leaves its empty row empty and
`s0` falls short of `n` by the number of islands, as the counterexample
shows.  The container is assumed well-formed per the construction
contract: neighbor ids drawn from the key set, an observation order
that permutes the key set, and weights aligned with neighbors. -/
theorem c5_row_standardization_s0 (sq : ℚ → ℚ) (nb : List (ℕ × List ℕ))
    (wopt : Option (List (ℕ × List ℚ))) (io : Option (List ℕ))
    (hclosed : ∀ p ∈ nb, ∀ j ∈ p.2, j ∈ nb.map Prod.fst)
    (horder : (mkW nb wopt io).id_order.Perm (nb.map Prod.fst))
    (halign : AlignedMaps nb (mkW nb wopt io).weights)
    (hrows : ∀ p ∈ (mkW nb wopt io).weights, p.2.sum ≠ 0) :
    (s0_get (setTransform sq (mkW nb wopt io) "R")).1 = (nb.length : ℚ) := by
  have htrans : lookA (mkW nb wopt io).transformations "R" = none := by
    show lookA [("O", (mkW nb wopt io).weights)] "R" = none
    simp [lookA]
  have := s0_after_R sq (mkW nb wopt io) htrans hclosed horder halign hrows
  exact this

/-- Witness for C5: the two-unit container (no islands, unit weights)
has `s0 = 2` after row standardization. -/
theorem c5_row_standardization_s0_witness :
    ((∀ p ∈ ([(0, [1]), (1, [0])] : List (ℕ × List ℕ)), ∀ j ∈ p.2,
        j ∈ ([(0, [1]), (1, [0])] : List (ℕ × List ℕ)).map Prod.fst) ∧
      (mkW [(0, [1]), (1, [0])] none none).id_order.Perm
        (([(0, [1]), (1, [0])] : List (ℕ × List ℕ)).map Prod.fst) ∧
      AlignedMaps [(0, [1]), (1, [0])] (mkW [(0, [1]), (1, [0])] none none).weights ∧
      (∀ p ∈ (mkW [(0, [1]), (1, [0])] none none).weights, p.2.sum ≠ 0)) ∧
    (s0_get (setTransform (fun q => q)
        (mkW [(0, [1]), (1, [0])] none none) "R")).1
      = (([(0, [1]), (1, [0])] : List (ℕ × List ℕ)).length : ℚ) := by
  have h1 : ∀ p ∈ ([(0, [1]), (1, [0])] : List (ℕ × List ℕ)), ∀ j ∈ p.2,
      j ∈ ([(0, [1]), (1, [0])] : List (ℕ × List ℕ)).map Prod.fst := by decide
  have h2 : (mkW [(0, [1]), (1, [0])] none none).id_order.Perm
      (([(0, [1]), (1, [0])] : List (ℕ × List ℕ)).map Prod.fst) := by decide
  have h3 : AlignedMaps [(0, [1]), (1, [0])]
      (mkW [(0, [1]), (1, [0])] none none).weights := by
    unfold AlignedMaps
    decide
  have h4 : ∀ p ∈ (mkW [(0, [1]), (1, [0])] none none).weights,
      p.2.sum ≠ 0 := by
    intro p hp
    have : p = (0, [(1 : ℚ)]) ∨ p = (1, [(1 : ℚ)]) := by
      simpa [mkW, defaultWeights] using hp
    rcases this with rfl | rfl <;> norm_num
  exact ⟨⟨h1, h2, h3, h4⟩,
    c5_row_standardization_s0 (fun q => q) _ none none h1 h2 h3 h4⟩

theorem mem_updA {κ α : Type} [DecidableEq κ] :
    ∀ {l : List (κ × α)} {k : κ} {v : α} {q : κ × α},
      q ∈ updA l k v → q ∈ l ∨ q = (k, v) := by
  intro l
  induction l with
  | nil =>
    intro k v q h
    simp only [updA] at h
    right
    exact List.mem_singleton.mp h
  | cons p l ih =>
    intro k v q h
    simp only [updA] at h
    split_ifs at h with hp
    · rcases List.mem_cons.mp h with h | h
      · right; exact h
      · left; exact List.mem_cons_of_mem _ h
    · rcases List.mem_cons.mp h with h | h
      · left; exact h ▸ List.mem_cons_self _ _
      · rcases ih h with h | h
        · left; exact List.mem_cons_of_mem _ h
        · right; exact h

/-- Rewriting every weight row in place (the shape of each transform
computation, one output entry per input entry with the same key)
commutes with lookup, as far as lengths are concerned, when the rewrite
preserves lengths. -/
theorem lookA_map_entry_len (f : (ℕ × List ℚ) → List ℚ)
    (hf : ∀ p, (f p).length = p.2.length) :
    ∀ (wm : List (ℕ × List ℚ)) (k : ℕ),
      (lookA (wm.map (fun p => (p.1, f p))) k).map List.length
        = (lookA wm k).map List.length := by
  intro wm
  induction wm with
  | nil => intro k; rfl
  | cons q wm ih =>
    intro k
    by_cases hq : q.1 = k
    · simp [lookA, hq, hf]
    · simp [lookA, hq, ih]

/-- Mapping a length-preserving function over the weight rows keeps the
alignment with the neighbor mapping. -/
theorem alignedMaps_map_rows {nb : List (ℕ × List ℕ)}
    {wm : List (ℕ × List ℚ)} (f : (ℕ × List ℚ) → List ℚ)
    (hf : ∀ p, (f p).length = p.2.length) (h : AlignedMaps nb wm) :
    AlignedMaps nb (wm.map (fun p => (p.1, f p))) := by
  constructor
  · intro p hp
    rw [lookA_map_entry_len f hf]
    exact h.1 p hp
  · intro q hq
    rcases List.mem_map.mp hq with ⟨p, hp, rfl⟩
    exact h.2 p hp

theorem s0_get_neighbors (s : WState) :
    (s0_get s).2.neighbors = s.neighbors := (s0_get_structEq s).1

theorem s0_get_weights (s : WState) :
    (s0_get s).2.weights = s.weights := (s0_get_structEq s).2.1

theorem cards_get_neighbors (s : WState) :
    (cards_get s).2.neighbors = s.neighbors := (cards_get_structEq s).1

theorem cards_get_weights (s : WState) :
    (cards_get s).2.weights = s.weights := (cards_get_structEq s).2.1

theorem n_get_neighbors (s : WState) :
    (n_get s).2.neighbors = s.neighbors := (n_get_structEq s).1

theorem n_get_weights (s : WState) :
    (n_get s).2.weights = s.weights := (n_get_structEq s).2.1

/-- `set_transform` never touches the neighbor mapping. -/
theorem setTransform_neighbors (sq : ℚ → ℚ) (s : WState) (value : String) :
    (setTransform sq s value).neighbors = s.neighbors := by
  unfold setTransform
  dsimp only
  cases hl : lookA s.transformations (upperS value) with
  | some wm => rfl
  | none =>
    split_ifs with h1 h2 h3 h4 h5 <;>
      simp [s0_get_neighbors, n_get_neighbors, cards_get_neighbors]

/-- Every `set_transform` call preserves the alignment invariant. -/
theorem winv_setTransform (sq : ℚ → ℚ) (s : WState) (value : String)
    (h : WInv s) : WInv (setTransform sq s value) := by
  obtain ⟨ha, hreg, hO⟩ := h
  unfold setTransform
  dsimp only
  cases hl : lookA s.transformations (upperS value) with
  | some wm =>
    have hwm : ((upperS value), wm) ∈ s.transformations := lookA_mem hl
    exact ⟨hreg _ hwm, hreg, hO⟩
  | none =>
    unfold WInv
    split_ifs with h1 h2 h3 h4 h5
    · -- R branch
      dsimp only
      refine ⟨alignedMaps_map_rows _ (fun p => List.length_map _ _) ha, ?_, ?_⟩
      · intro p hp
        rcases mem_updA hp with hp | hp
        · exact hreg _ hp
        · rw [hp]
          exact alignedMaps_map_rows _ (fun p => List.length_map _ _) ha
      · rw [lookA_updA]
        split_ifs with ho
        · simp
        · exact hO
    · -- D branch
      dsimp only
      rw [s0_get_weights, s0_get_transformations, s0_get_neighbors]
      refine ⟨alignedMaps_map_rows _ (fun p => List.length_map _ _) ha, ?_, ?_⟩
      · intro p hp
        rcases mem_updA hp with hp | hp
        · exact hreg _ hp
        · rw [hp]
          exact alignedMaps_map_rows _ (fun p => List.length_map _ _) ha
      · rw [lookA_updA]
        split_ifs with ho
        · simp
        · exact hO
    · -- B branch
      dsimp only
      refine ⟨alignedMaps_map_rows _ (fun p => List.length_map _ _) ha, ?_, ?_⟩
      · intro p hp
        rcases mem_updA hp with hp | hp
        · exact hreg _ hp
        · rw [hp]
          exact alignedMaps_map_rows _ (fun p => List.length_map _ _) ha
      · rw [lookA_updA]
        split_ifs with ho
        · simp
        · exact hO
    · -- V branch
      dsimp only
      rw [n_get_weights, n_get_transformations, n_get_neighbors,
        cards_get_weights, cards_get_transformations, cards_get_neighbors]
      refine ⟨?_, ?_, ?_⟩
      · exact alignedMaps_map_rows _
          (fun p => by rw [List.length_map, List.length_map]) ha
      · intro p hp
        rcases mem_updA hp with hp | hp
        · exact hreg _ hp
        · rw [hp]
          exact alignedMaps_map_rows _
            (fun p => by rw [List.length_map, List.length_map]) ha
      · rw [lookA_updA]
        split_ifs with ho
        · simp
        · exact hO
    · -- dead "O" branch: contradicts the invariant ("O" is registered)
      rw [h5] at hl
      rw [hl] at hO
      exact absurd hO (by simp)
    · -- unknown transform: nothing but the designation changes
      exact ⟨ha, hreg, hO⟩

theorem winv_applyTransforms (sq : ℚ → ℚ) (seq : List String) (s : WState)
    (h : WInv s) : WInv (applyTransforms sq s seq) := by
  induction seq generalizing s with
  | nil => exact h
  | cons v seq ih =>
    show WInv (applyTransforms sq (setTransform sq s v) seq)
    exact ih _ (winv_setTransform sq s v h)

/-- C7 counterexample: constructing with an explicit weights mapping
misaligned with the neighbors mapping (unit 0 has one neighbor but two
weights) succeeds unvalidated, so the claimed invariant fails right at
construction. -/
theorem c7_counterexample :
    (lookA (mkW [(0, [1]), (1, [0])]
        (some [(0, [(1 : ℚ), 2]), (1, [1])]) none).neighbors 0).map List.length
      = some 1 ∧
    (lookA (mkW [(0, [1]), (1, [0])]
        (some [(0, [(1 : ℚ), 2]), (1, [1])]) none).weights 0).map List.length
      = some 2 := by
  constructor <;> rfl

/-- C7 amended: provided the construction input respects the
construction contract — the explicitly supplied weights mapping (when
given) is aligned with the neighbor mapping, carrying the same ids with
the same per-id lengths (always true when weights are omitted) — then
after construction and after every sequence of `set_transform` calls
(supported, memoized or unknown alike) the neighbors and weights
mappings stay aligned: the same ids carry entries and
`len(neighbors[id]) = len(weights[id])` for every id. -/
theorem c7_alignment_invariant (sq : ℚ → ℚ) (nb : List (ℕ × List ℕ))
    (wopt : Option (List (ℕ × List ℚ))) (io : Option (List ℕ))
    (seq : List String)
    (halign : AlignedMaps nb (mkW nb wopt io).weights) :
    AlignedMaps (applyTransforms sq (mkW nb wopt io) seq).neighbors
      (applyTransforms sq (mkW nb wopt io) seq).weights := by
  have hinv0 : WInv (mkW nb wopt io) := by
    refine ⟨halign, ?_, ?_⟩
    · intro p hp
      have ht : (mkW nb wopt io).transformations
          = [("O", (mkW nb wopt io).weights)] := rfl
      rw [ht] at hp
      rw [List.mem_singleton.mp hp]
      exact halign
    · have ht : (mkW nb wopt io).transformations
          = [("O", (mkW nb wopt io).weights)] := rfl
      rw [ht]
      simp [lookA]
  have hinv := winv_applyTransforms sq seq _ hinv0
  have hnb : (applyTransforms sq (mkW nb wopt io) seq).neighbors = nb := by
    have : ∀ (l : List String) (t : WState),
        (applyTransforms sq t l).neighbors = t.neighbors := by
      intro l
      induction l with
      | nil => intro t; rfl
      | cons v l ihl =>
        intro t
        show (applyTransforms sq (setTransform sq t v) l).neighbors = _
        rw [ihl, setTransform_neighbors]
    rw [this]
    rfl
  rw [hnb]
  have := hinv.1
  rw [hnb] at this
  exact this

/-- Witness for C7: default weights, then a B, V, R transform chain and
an unknown name, on a two-unit container. -/
theorem c7_alignment_invariant_witness :
    AlignedMaps [(0, [1]), (1, [0])]
      (mkW [(0, [1]), (1, [0])] none none).weights ∧
    AlignedMaps
      (applyTransforms (fun q => q) (mkW [(0, [1]), (1, [0])] none none)
        ["B", "V", "R", "X"]).neighbors
      (applyTransforms (fun q => q) (mkW [(0, [1]), (1, [0])] none none)
        ["B", "V", "R", "X"]).weights := by
  have h : AlignedMaps [(0, [1]), (1, [0])]
      (mkW [(0, [1]), (1, [0])] none none).weights := by
    unfold AlignedMaps
    decide
  exact ⟨h, c7_alignment_invariant (fun q => q) _ none none _ h⟩

theorem nbrs_mem_keys {s : WState} (hcg : ClosedGraph s) {m j : ℕ}
    (h : j ∈ nbrsOf s m) : j ∈ keysW s := by
  unfold nbrsOf at h
  cases hl : lookA s.neighbors m with
  | none => rw [hl] at h; simp at h
  | some nl =>
    rw [hl] at h
    exact hcg _ (lookA_mem hl) _ (by simpa using h)

/-- Characterization of `find?` over an arithmetic range: the returned
element satisfies the predicate, lies in the range, and is preceded by
no satisfying element. -/
theorem find_range' (p : ℕ → Bool) :
    ∀ (n a b : ℕ), (List.range' a n).find? p = some b ↔
      (a ≤ b ∧ b < a + n ∧ p b = true ∧
        ∀ c, a ≤ c → c < b → p c = false) := by
  intro n
  induction n with
  | zero =>
    intro a b
    simp only [List.range', List.find?_nil]
    constructor
    · intro h; cases h
    · rintro ⟨h1, h2, -⟩; omega
  | succ n ih =>
    intro a b
    simp only [List.range']
    by_cases hpa : p a = true
    · rw [List.find?_cons_of_pos _ hpa]
      constructor
      · intro h
        injection h with h
        subst h
        exact ⟨Nat.le_refl a, by omega, hpa,
          fun c h1 h2 => absurd (Nat.lt_of_le_of_lt h1 h2) (Nat.lt_irrefl a)⟩
      · rintro ⟨h1, h2, h3, h4⟩
        rcases Nat.eq_or_lt_of_le h1 with h | h
        · rw [h]
        · have := h4 a (Nat.le_refl a) h
          rw [hpa] at this
          cases this
    · have hpa' : p a = false := by
        cases hb : p a
        · rfl
        · exact absurd hb hpa
      rw [List.find?_cons_of_neg _ (by rw [hpa']; exact Bool.false_ne_true)]
      rw [ih (a + 1) b]
      constructor
      · rintro ⟨h1, h2, h3, h4⟩
        refine ⟨by omega, by omega, h3, fun c hc1 hc2 => ?_⟩
        rcases Nat.eq_or_lt_of_le hc1 with h | h
        · rw [← h]; exact hpa'
        · exact h4 c h hc2
      · rintro ⟨h1, h2, h3, h4⟩
        have hab : a ≠ b := by
          rintro rfl
          rw [h3] at hpa'
          cases hpa'
        exact ⟨by omega, by omega, h3, fun c hc1 hc2 => h4 c (by omega) hc2⟩

/-- The order the masking iteration assigns: smallest power in `1..k`
with a walk of that exact length. -/
theorem minOrder_eq_some_iff (s : WState) (k i j d : ℕ) :
    minOrder s k i j = some d ↔
      (1 ≤ d ∧ d ≤ k ∧ walkB s d i j = true ∧
        ∀ p, 1 ≤ p → p < d → walkB s p i j = false) := by
  unfold minOrder
  rw [find_range']
  constructor
  · rintro ⟨h1, h2, h3, h4⟩
    exact ⟨h1, by omega, h3, h4⟩
  · rintro ⟨h1, h2, h3, h4⟩
    exact ⟨h1, by omega, h3, h4⟩

theorem adjB_mem_keys {s : WState} (hcg : ClosedGraph s) {i j : ℕ}
    (h : adjB s i j = true) : j ∈ keysW s :=
  nbrs_mem_keys hcg (of_decide_eq_true h)

/-- One unfolding of the boolean matrix power. -/
theorem walkB_succ (s : WState) (p i j : ℕ) :
    walkB s (p + 1) i j
      = (keysW s).any (fun m => adjB s i m && walkB s p m j) := rfl

/-- The front-step recursion of the boolean matrix power agrees with a
back-step decomposition on a closed graph. -/
theorem walkB_succ_iff {s : WState} (hcg : ClosedGraph s) :
    ∀ (p i j : ℕ), i ∈ keysW s →
      (walkB s (p + 1) i j = true ↔
        ∃ m ∈ keysW s, walkB s p i m = true ∧ adjB s m j = true) := by
  intro p
  induction p with
  | zero =>
    intro i j hi
    rw [walkB_succ]
    simp only [List.any_eq_true, Bool.and_eq_true]
    constructor
    · rintro ⟨m, hm, hadj, hmj⟩
      have hmj' : m = j := by simpa [walkB] using hmj
      subst hmj'
      exact ⟨i, hi, by simp [walkB], hadj⟩
    · rintro ⟨m, hm, him, hadj⟩
      have him' : i = m := by simpa [walkB] using him
      subst him'
      exact ⟨j, adjB_mem_keys hcg hadj, hadj, by simp [walkB]⟩
  | succ p ih =>
    intro i j hi
    rw [walkB_succ]
    simp only [List.any_eq_true, Bool.and_eq_true]
    constructor
    · rintro ⟨m, hm, hadj, hw⟩
      obtain ⟨m', hm', hw', hadj'⟩ := (ih m j hm).mp hw
      refine ⟨m', hm', ?_, hadj'⟩
      rw [walkB_succ]
      simp only [List.any_eq_true, Bool.and_eq_true]
      exact ⟨m, hm, hadj, hw'⟩
    · rintro ⟨m', hm', hw', hadj'⟩
      rw [walkB_succ] at hw'
      simp only [List.any_eq_true, Bool.and_eq_true] at hw'
      obtain ⟨m, hm, hadj, hw⟩ := hw'
      exact ⟨m, hm, hadj, (ih m j hm).mpr ⟨m', hm', hw, hadj'⟩⟩

theorem reachLe_succ_of_mem {s : WState} {d i j : ℕ}
    (h : j ∈ reachLe s d i) : j ∈ reachLe s (d + 1) i := by
  simp only [reachLe, List.mem_dedup, List.mem_append]
  exact Or.inl h

theorem reachLe_keys {s : WState} (hcg : ClosedGraph s) {i : ℕ} :
    ∀ {d j : ℕ}, j ∈ reachLe s d i → j = i ∨ j ∈ keysW s := by
  intro d
  induction d with
  | zero =>
    intro j h
    simp only [reachLe, List.mem_singleton] at h
    exact Or.inl h
  | succ d ih =>
    intro j h
    simp only [reachLe, List.mem_dedup, List.mem_append,
      List.mem_flatMap] at h
    rcases h with h | ⟨m, hm, hj⟩
    · exact ih h
    · exact Or.inr (nbrs_mem_keys hcg hj)

/-- Breadth-first reachability within `d` steps coincides with the
existence of a walk of some length at most `d`. -/
theorem mem_reachLe_iff {s : WState} (hcg : ClosedGraph s) {i : ℕ}
    (hi : i ∈ keysW s) :
    ∀ (d j : ℕ), j ∈ reachLe s d i ↔ ∃ p, p ≤ d ∧ walkB s p i j = true := by
  intro d
  induction d with
  | zero =>
    intro j
    simp only [reachLe, List.mem_singleton]
    constructor
    · rintro rfl
      exact ⟨0, Nat.le_refl 0, by simp [walkB]⟩
    · rintro ⟨p, hp, hw⟩
      have : p = 0 := Nat.le_zero.mp hp
      subst this
      simp only [walkB, beq_iff_eq] at hw
      exact hw.symm
  | succ d ih =>
    intro j
    simp only [reachLe, List.mem_dedup, List.mem_append, List.mem_flatMap]
    constructor
    · rintro (h | ⟨m, hm, hj⟩)
      · obtain ⟨p, hp, hw⟩ := (ih j).mp h
        exact ⟨p, Nat.le_succ_of_le hp, hw⟩
      · obtain ⟨p, hp, hw⟩ := (ih m).mp hm
        have hmk : m ∈ keysW s := by
          rcases reachLe_keys hcg hm with rfl | h
          · exact hi
          · exact h
        refine ⟨p + 1, by omega, ?_⟩
        exact (walkB_succ_iff hcg p i j hi).mpr
          ⟨m, hmk, hw, decide_eq_true hj⟩
    · rintro ⟨p, hp, hw⟩
      rcases Nat.lt_or_ge p (d + 1) with h | h
      · left
        exact (ih j).mpr ⟨p, by omega, hw⟩
      · have : p = d + 1 := by omega
        subst this
        obtain ⟨m, hm, hw', hadj⟩ := (walkB_succ_iff hcg d i j hi).mp hw
        right
        exact ⟨m, (ih m).mpr ⟨d, Nat.le_refl d, hw'⟩, of_decide_eq_true hadj⟩

theorem lookA_map_fn {β : Type} (F : ℕ → β) :
    ∀ (l : List ℕ) (i : ℕ), i ∈ l →
      lookA (l.map (fun x => (x, F x))) i = some (F i) := by
  intro l
  induction l with
  | nil => intro i hi; cases hi
  | cons x l ih =>
    intro i hi
    by_cases hx : x = i
    · simp [lookA, hx]
    · rcases List.mem_cons.mp hi with h | h
      · exact absurd h.symm hx
      · simp [lookA, hx, ih i h]

/-- Membership in the higher-order neighbor list, by construction. -/
theorem mem_higherOrderNbrs_iff {s : WState} {k i j : ℕ}
    (hi : i ∈ keysW s) :
    j ∈ nbrsOf (higherOrder s k) i ↔
      j ∈ keysW s ∧ j ≠ i ∧ minOrder s k i j = some k := by
  have hn : (higherOrder s k).neighbors = higherOrderNbrs s k := rfl
  unfold nbrsOf
  rw [hn]
  unfold higherOrderNbrs
  rw [lookA_map_fn _ _ i hi]
  simp only [Option.getD_some, List.mem_filter, decide_eq_true_eq]

/-- C6: `higher_order(k)` (modelled from the spec, the `util` module
being absent from this snapshot) returns a brand-new container in which
`j` is a neighbor of `i` exactly when `j` differs from `i`, is
reachable from `i` within `k` steps, and is not reachable within fewer
— that is, when the shortest-path distance from `i` to `j` in the
binary neighbor graph is exactly `k`; consequently the neighbor lists
produced for two different orders are disjoint, and every output edge
weight is 1.0 (one unit weight per output neighbor). -/
theorem c6_higher_order_exact_distance (s : WState) (k i j : ℕ)
    (hcg : ClosedGraph s) (hi : i ∈ keysW s) :
    (j ∈ nbrsOf (higherOrder s k) i ↔
      j ≠ i ∧ j ∈ reachLe s k i ∧ ∀ d, d < k → j ∉ reachLe s d i) ∧
    (∀ k2, k ≠ k2 → j ∈ nbrsOf (higherOrder s k) i →
      j ∉ nbrsOf (higherOrder s k2) i) ∧
    (higherOrder s k).weights
      = (higherOrder s k).neighbors.map
          (fun p => (p.1, List.replicate p.2.length (1 : ℚ))) := by
  have hchar : ∀ k', (j ∈ nbrsOf (higherOrder s k') i ↔
      j ≠ i ∧ j ∈ reachLe s k' i ∧ ∀ d, d < k' → j ∉ reachLe s d i) := by
    intro k'
    rw [mem_higherOrderNbrs_iff hi]
    constructor
    · rintro ⟨hjk, hji, hmin⟩
      obtain ⟨h1, h2, h3, h4⟩ := (minOrder_eq_some_iff s k' i j k').mp hmin
      refine ⟨hji, (mem_reachLe_iff hcg hi k' j).mpr ⟨k', Nat.le_refl k', h3⟩,
        fun d hd hmem => ?_⟩
      obtain ⟨p, hp, hw⟩ := (mem_reachLe_iff hcg hi d j).mp hmem
      rcases Nat.eq_zero_or_pos p with rfl | hpos
      · simp only [walkB, beq_iff_eq] at hw
        exact hji hw.symm
      · have := h4 p hpos (by omega)
        rw [hw] at this
        cases this
    · rintro ⟨hji, hreach, hless⟩
      obtain ⟨p, hp, hw⟩ := (mem_reachLe_iff hcg hi k' j).mp hreach
      have hpk : p = k' := by
        rcases Nat.lt_or_ge p k' with h | h
        · exact absurd ((mem_reachLe_iff hcg hi p j).mpr
            ⟨p, Nat.le_refl p, hw⟩) (hless p h)
        · omega
      subst hpk
      have hjk : j ∈ keysW s := by
        have : j ∈ reachLe s p i := (mem_reachLe_iff hcg hi p j).mpr
          ⟨p, Nat.le_refl p, hw⟩
        rcases reachLe_keys hcg this with rfl | h
        · exact absurd rfl hji
        · exact h
      have hpos : 1 ≤ p := by
        rcases Nat.eq_zero_or_pos p with rfl | h
        · simp only [walkB, beq_iff_eq] at hw
          exact absurd hw.symm hji
        · exact h
      refine ⟨hjk, hji, (minOrder_eq_some_iff s p i j p).mpr
        ⟨hpos, Nat.le_refl p, hw, fun q hq1 hq2 => ?_⟩⟩
      cases hwq : walkB s q i j with
      | false => rfl
      | true =>
        exact absurd ((mem_reachLe_iff hcg hi q j).mpr
          ⟨q, Nat.le_refl q, hwq⟩) (hless q (by omega))
  refine ⟨hchar k, fun k2 hne hk hk2 => ?_, rfl⟩
  obtain ⟨-, hr1, hl1⟩ := (hchar k).mp hk
  obtain ⟨-, hr2, hl2⟩ := (hchar k2).mp hk2
  rcases Nat.lt_or_ge k k2 with h | h
  · exact hl2 k h hr1
  · have : k2 < k := by omega
    exact hl1 k2 this hr2

/-- Witness for C6: on the path graph 0 − 1 − 2, unit 2 is a
second-order neighbor of unit 0 and the order-1 and order-2 lists are
disjoint. -/
theorem c6_higher_order_exact_distance_witness :
    (ClosedGraph (mkW [(0, [1]), (1, [0, 2]), (2, [1])] none none) ∧
      0 ∈ keysW (mkW [(0, [1]), (1, [0, 2]), (2, [1])] none none)) ∧
    ((2 ∈ nbrsOf (higherOrder
        (mkW [(0, [1]), (1, [0, 2]), (2, [1])] none none) 2) 0 ↔
      2 ≠ 0 ∧ 2 ∈ reachLe (mkW [(0, [1]), (1, [0, 2]), (2, [1])] none none) 2 0 ∧
        ∀ d, d < 2 →
          2 ∉ reachLe (mkW [(0, [1]), (1, [0, 2]), (2, [1])] none none) d 0) ∧
    (∀ k2, 2 ≠ k2 →
      2 ∈ nbrsOf (higherOrder
        (mkW [(0, [1]), (1, [0, 2]), (2, [1])] none none) 2) 0 →
      2 ∉ nbrsOf (higherOrder
        (mkW [(0, [1]), (1, [0, 2]), (2, [1])] none none) k2) 0) ∧
    (higherOrder (mkW [(0, [1]), (1, [0, 2]), (2, [1])] none none) 2).weights
      = (higherOrder (mkW [(0, [1]), (1, [0, 2]), (2, [1])] none none)
          2).neighbors.map
          (fun p => (p.1, List.replicate p.2.length (1 : ℚ)))) := by
  have hcg : ClosedGraph (mkW [(0, [1]), (1, [0, 2]), (2, [1])] none none) := by
    unfold ClosedGraph keysW
    decide
  have hi : 0 ∈ keysW (mkW [(0, [1]), (1, [0, 2]), (2, [1])] none none) := by
    unfold keysW
    decide
  exact ⟨⟨hcg, hi⟩,
    c6_higher_order_exact_distance _ 2 0 2 hcg hi⟩

/-- C9: the thin sparse proxy `WSP(4, [0, 1, 1, 2, 2, 3],
[1, 0, 2, 1, 3, 3])` with omitted weights (so unit weight per listed
entry) yields `s0 = 6` and `trcWtW_WW = 11`, matching the source's own
doctest. -/
theorem gainOnly_refl (c : List (String × CVal)) : gainOnly c c :=
  fun _ _ h => h

theorem gainOnly_trans {a b c : List (String × CVal)} (h1 : gainOnly a b)
    (h2 : gainOnly b c) : gainOnly a c :=
  fun k v h => h2 k v (h1 k v h)

theorem gainOnly_updA_absent {c : List (String × CVal)} {k : String}
    {v : CVal} (h : lookA c k = none) : gainOnly c (updA c k v) := by
  intro k' v' h'
  rw [lookA_updA]
  split_ifs with he
  · rw [he] at h
    rw [h] at h'
    cases h'
  · exact h'

theorem gainOnly_updA_same {c : List (String × CVal)} {k : String}
    {v : CVal} (h : lookA c k = some v) : gainOnly c (updA c k v) := by
  intro k' v' h'
  rw [lookA_updA]
  split_ifs with he
  · rw [he] at h
    rw [h] at h'
    exact h'
  · exact h'

theorem cacheSame_refl (K : List String) (c : List (String × CVal)) :
    cacheSame K c c := fun _ _ => rfl

theorem cacheSame_trans {K : List String} {a b c : List (String × CVal)}
    (h1 : cacheSame K a b) (h2 : cacheSame K b c) : cacheSame K a c :=
  fun k hk => (h2 k hk).trans (h1 k hk)

theorem cacheSame_mono {K K' : List String} (hs : ∀ x ∈ K, x ∈ K')
    {c c' : List (String × CVal)} (h : cacheSame K c c') :
    cacheSame K' c c' :=
  fun k hk => h k (fun hm => hk (hs k hm))

theorem cacheSame_updA {K : List String} {c : List (String × CVal)}
    {k : String} {v : CVal} (hk : k ∈ K) : cacheSame K c (updA c k v) := by
  intro k' hk'
  rw [lookA_updA]
  split_ifs with he
  · exact absurd (he ▸ hk) hk'
  · rfl

theorem cacheSame_updA_cons {K : List String} {c c' : List (String × CVal)}
    {k : String} {v : CVal} (h : cacheSame K c c') :
    cacheSame (k :: K) c (updA c' k v) := by
  intro k' hk'
  rw [lookA_updA]
  split_ifs with he
  · exact absurd (he ▸ List.mem_cons_self k K) hk'
  · exact h k' (fun hm => hk' (List.mem_cons_of_mem _ hm))

theorem coreEq_of_structEq {s t : WState} (h : structEq s t) : coreEq s t :=
  ⟨h.1, h.2.1, h.2.2.2.2.1, h.2.2.2.1⟩

theorem FrameOf_refl (s : WState) : FrameOf s s :=
  ⟨⟨rfl, rfl, rfl, rfl⟩, gainOnly_refl _⟩

/-- The structural-value functions depend only on the structural
fields. -/
theorem vals_congr {s t : WState} (hnb : t.neighbors = s.neighbors)
    (hwt : t.weights = s.weights) (hio : t.id_order = s.id_order) :
    offsetsVal t = offsetsVal s ∧ cardsVal t = cardsVal s ∧
    buildEntriesVal t = buildEntriesVal s := by
  have hn : ∀ i, nbrsOf t i = nbrsOf s i := by
    intro i; unfold nbrsOf; rw [hnb]
  have ho : offsetsVal t = offsetsVal s := by
    unfold offsetsVal; rw [hnb, hio]
  have hc : cardsVal t = cardsVal s := by
    unfold cardsVal
    rw [hio]
    exact List.map_congr_left fun i _ => by rw [hn i]
  refine ⟨ho, hc, ?_⟩
  unfold buildEntriesVal wtsOf
  rw [ho, hio, hwt]

theorem specCVal_congr {s t : WState} (hnb : t.neighbors = s.neighbors)
    (hwt : t.weights = s.weights) (hio : t.id_order = s.id_order) (κ : String) :
    specCVal t κ = specCVal s κ := by
  obtain ⟨ho, hc, hb⟩ := vals_congr hnb hwt hio
  unfold specCVal
  rw [hnb, hio, ho, hc, hb]

/-- Inserting a binding that agrees with its specified value (and is
not the never-written key) preserves cache consistency. -/
theorem cacheOK_insert {s t : WState} (h : CacheOK s) {κ : String} {v : CVal}
    (hnb : t.neighbors = s.neighbors) (hwt : t.weights = s.weights)
    (hio : t.id_order = s.id_order) (hc : t.cache = updA s.cache κ v)
    (hn1 : κ = "n" → t.nAttr = t.neighbors.length)
    (hn2 : ¬κ = "n" → t.nAttr = s.nAttr) (hdw : ¬κ = "diagw2")
    (hspec : ∀ u, specCVal s κ = some u → v = u) : CacheOK t := by
  obtain ⟨h1, h2, h3⟩ := h
  refine ⟨?_, ?_, ?_⟩
  · intro w hw
    rw [hc, lookA_updA] at hw
    split_ifs at hw with he
    · exact hn1 he
    · have hs := h1 w hw
      rw [hn2 he, hnb]
      exact hs
  · rw [hc, lookA_updA, if_neg hdw]
    exact h2
  · intro κ' w hw u hu
    rw [hc, lookA_updA] at hw
    rw [specCVal_congr hnb hwt hio] at hu
    split_ifs at hw with he
    · injection hw with hw2
      rw [← hw2]
      rw [← he] at hu
      exact hspec u hu
    · exact h3 κ' w hw u hu

/-- A freshly reset cache is consistent. -/
theorem cacheOK_of_empty {s : WState} (hc : s.cache = []) : CacheOK s := by
  refine ⟨?_, ?_, ?_⟩
  · intro v h; rw [hc] at h; cases h
  · rw [hc]; rfl
  · intro κ v h; rw [hc] at h; cases h

theorem id2i_get_ok (s : WState) (h : CacheOK s) :
    (id2i_get s).1 = id2iVal s.id_order ∧ CacheOK (id2i_get s).2 := by
  unfold id2i_get
  cases heq : lookA s.cache "id2i" with
  | some v =>
    have hv := h.2.2 "id2i" v heq (CVal.npairs (id2iVal s.id_order))
      (by simp [specCVal])
    subst hv
    exact ⟨rfl, h⟩
  | none =>
    refine ⟨rfl, cacheOK_insert h rfl rfl rfl rfl
      (fun hk => absurd hk (by decide)) (fun _ => rfl) (by decide) ?_⟩
    intro u hu
    have hsv : specCVal s "id2i" = some (CVal.npairs (id2iVal s.id_order)) := by
      simp [specCVal]
    rw [hsv] at hu
    injection hu with hu

theorem n_get_ok (s : WState) (h : CacheOK s) :
    (n_get s).1 = s.neighbors.length ∧ CacheOK (n_get s).2 := by
  unfold n_get
  cases heq : lookA s.cache "n" with
  | some v =>
    exact ⟨h.1 v heq, h⟩
  | none =>
    refine ⟨rfl, cacheOK_insert h rfl rfl rfl rfl (fun _ => rfl)
      (fun hne => absurd rfl hne) (by decide) ?_⟩
    intro u hu
    simp [specCVal] at hu

theorem cards_get_ok (s : WState) (h : CacheOK s) :
    (cards_get s).1 = cardsVal s ∧ CacheOK (cards_get s).2 := by
  unfold cards_get
  cases heq : lookA s.cache "cardinalities" with
  | some v =>
    have hv := h.2.2 "cardinalities" v heq (CVal.npairs (cardsVal s))
      (by simp [specCVal])
    subst hv
    exact ⟨rfl, h⟩
  | none =>
    refine ⟨rfl, cacheOK_insert h rfl rfl rfl rfl
      (fun hk => absurd hk (by decide)) (fun _ => rfl) (by decide) ?_⟩
    intro u hu
    have hsv : specCVal s "cardinalities" = some (CVal.npairs (cardsVal s)) := by
      simp [specCVal]
    rw [hsv] at hu
    injection hu with hu

theorem offsets_get_ok (s : WState) (h : CacheOK s) :
    (offsets_get s).1 = offsetsVal s ∧ CacheOK (offsets_get s).2 := by
  unfold offsets_get
  cases heq : lookA s.cache "neighbors_0" with
  | some v =>
    have hv := h.2.2 "neighbors_0" v heq (CVal.offs (offsetsVal s))
      (by simp [specCVal])
    subst hv
    exact ⟨rfl, h⟩
  | none =>
    obtain ⟨hval, hok⟩ := id2i_get_ok s h
    obtain ⟨e1, e2, e3, e4, e5, e6⟩ := id2i_get_structEq s
    obtain ⟨ho, hcv, hbv⟩ := vals_congr e1 e2 e5
    have hvexpr : (id2i_get s).2.neighbors.map
        (fun p => (p.1, p.2.map (fun nb => (lookA (id2i_get s).1 nb).getD 0)))
        = offsetsVal s := by
      rw [hval, e1]
      rfl
    constructor
    · exact hvexpr
    · refine cacheOK_insert hok rfl rfl rfl rfl
        (fun hk => absurd hk (by decide)) (fun _ => rfl) (by decide) ?_
      intro u hu
      have hsv : specCVal (id2i_get s).2 "neighbors_0"
          = some (CVal.offs (offsetsVal (id2i_get s).2)) := by
        simp [specCVal]
      rw [hsv] at hu
      injection hu with hu
      rw [← hu, hvexpr, ho]

theorem sparse_get_ok (s : WState) (h : CacheOK s) :
    (sparse_get s).1 = (s.neighbors.length, buildEntriesVal s) ∧
    CacheOK (sparse_get s).2 := by
  unfold sparse_get
  cases heq : lookA s.cache "sparse" with
  | some v =>
    have hv := h.2.2 "sparse" v heq
      (CVal.ents s.neighbors.length (buildEntriesVal s)) (by simp [specCVal])
    subst hv
    exact ⟨rfl, h⟩
  | none =>
    obtain ⟨hv1, hk1⟩ := id2i_get_ok s h
    obtain ⟨hv2, hk2⟩ := offsets_get_ok (id2i_get s).2 hk1
    obtain ⟨hv3, hk3⟩ := cards_get_ok (offsets_get (id2i_get s).2).2 hk2
    obtain ⟨hv4, hk4⟩ := n_get_ok
      (cards_get (offsets_get (id2i_get s).2).2).2 hk3
    obtain ⟨e1, e2, e3, e4, e5, e6⟩ := id2i_get_structEq s
    obtain ⟨f1, f2, f3, f4, f5, f6⟩ := offsets_get_structEq (id2i_get s).2
    obtain ⟨g1, g2, g3, g4, g5, g6⟩ :=
      cards_get_structEq (offsets_get (id2i_get s).2).2
    obtain ⟨k1, k2, k3, k4, k5, k6⟩ :=
      n_get_structEq (cards_get (offsets_get (id2i_get s).2).2).2
    obtain ⟨ho1, -, -⟩ := vals_congr e1 e2 e5
    have hnn : (n_get (cards_get (offsets_get (id2i_get s).2).2).2).1
        = s.neighbors.length := by
      rw [hv4, g1, f1, e1]
    have hwts : (n_get (cards_get (offsets_get (id2i_get s).2).2).2).2.weights
        = s.weights := by
      rw [k2, g2, f2, e2]
    have hL : (offsets_get (id2i_get s).2).1.flatMap (fun p =>
        (p.2.zip ((lookA (n_get (cards_get
            (offsets_get (id2i_get s).2).2).2).2.weights p.1).getD [])).map
          (fun cd => ((lookA (id2i_get s).1 p.1).getD 0, cd.1, cd.2)))
        = buildEntriesVal s := by
      rw [hwts, hv1, hv2, ho1]
      rfl
    have hnb4 : (n_get (cards_get (offsets_get (id2i_get s).2).2).2).2.neighbors
        = s.neighbors := by rw [k1, g1, f1, e1]
    have hwt4 : (n_get (cards_get (offsets_get (id2i_get s).2).2).2).2.weights
        = s.weights := by rw [k2, g2, f2, e2]
    have hio4 : (n_get (cards_get (offsets_get (id2i_get s).2).2).2).2.id_order
        = s.id_order := by rw [k5, g5, f5, e5]
    obtain ⟨-, -, hb⟩ := vals_congr hnb4 hwt4 hio4
    constructor
    · dsimp only
      rw [hnn, hL]
    · refine cacheOK_insert hk4 rfl rfl rfl rfl
        (fun hk => absurd hk (by decide)) (fun _ => rfl) (by decide) ?_
      intro u hu
      have hsv : specCVal (n_get (cards_get (offsets_get (id2i_get s).2).2).2).2
          "sparse" = some (CVal.ents
            (n_get (cards_get (offsets_get (id2i_get s).2).2).2).2.neighbors.length
            (buildEntriesVal
              (n_get (cards_get (offsets_get (id2i_get s).2).2).2).2)) := by
        simp [specCVal]
      rw [hsv] at hu
      injection hu with hu
      rw [← hu, hnn, hL, hb, hnb4]

theorem id2i_get_frame (s : WState) :
    gainOnly s.cache (id2i_get s).2.cache ∧
    cacheSame ["id2i"] s.cache (id2i_get s).2.cache := by
  unfold id2i_get
  split
  · exact ⟨gainOnly_refl _, cacheSame_refl _ _⟩
  · exact ⟨gainOnly_refl _, cacheSame_refl _ _⟩
  · rename_i heq
    exact ⟨gainOnly_updA_absent heq, cacheSame_updA (by decide)⟩

theorem n_get_frame (s : WState) :
    gainOnly s.cache (n_get s).2.cache ∧
    cacheSame ["n"] s.cache (n_get s).2.cache := by
  unfold n_get
  split
  · exact ⟨gainOnly_refl _, cacheSame_refl _ _⟩
  · rename_i heq
    exact ⟨gainOnly_updA_absent heq, cacheSame_updA (by decide)⟩

theorem cards_get_frame (s : WState) :
    gainOnly s.cache (cards_get s).2.cache ∧
    cacheSame ["cardinalities"] s.cache (cards_get s).2.cache := by
  unfold cards_get
  split
  · exact ⟨gainOnly_refl _, cacheSame_refl _ _⟩
  · exact ⟨gainOnly_refl _, cacheSame_refl _ _⟩
  · rename_i heq
    exact ⟨gainOnly_updA_absent heq, cacheSame_updA (by decide)⟩

theorem offsets_get_frame (s : WState) :
    gainOnly s.cache (offsets_get s).2.cache ∧
    cacheSame ["neighbors_0", "id2i"] s.cache (offsets_get s).2.cache := by
  unfold offsets_get
  split
  · exact ⟨gainOnly_refl _, cacheSame_refl _ _⟩
  · exact ⟨gainOnly_refl _, cacheSame_refl _ _⟩
  · rename_i heq
    obtain ⟨hg, hcs⟩ := id2i_get_frame s
    have habs : lookA (id2i_get s).2.cache "neighbors_0" = none := by
      rw [hcs "neighbors_0" (by decide), heq]
    exact ⟨gainOnly_trans hg (gainOnly_updA_absent habs),
      cacheSame_updA_cons hcs⟩

theorem sparse_get_frame (s : WState) :
    gainOnly s.cache (sparse_get s).2.cache ∧
    cacheSame ["sparse", "id2i", "neighbors_0", "cardinalities", "n"]
      s.cache (sparse_get s).2.cache := by
  unfold sparse_get
  split
  · exact ⟨gainOnly_refl _, cacheSame_refl _ _⟩
  · exact ⟨gainOnly_refl _, cacheSame_refl _ _⟩
  · rename_i heq
    obtain ⟨hg1, hc1⟩ := id2i_get_frame s
    obtain ⟨hg2, hc2⟩ := offsets_get_frame (id2i_get s).2
    obtain ⟨hg3, hc3⟩ := cards_get_frame (offsets_get (id2i_get s).2).2
    obtain ⟨hg4, hc4⟩ := n_get_frame
      (cards_get (offsets_get (id2i_get s).2).2).2
    have hchain : cacheSame ["id2i", "neighbors_0", "cardinalities", "n"]
        s.cache (n_get (cards_get (offsets_get (id2i_get s).2).2).2).2.cache :=
      cacheSame_trans (cacheSame_mono (by decide) hc1)
        (cacheSame_trans (cacheSame_mono (by decide) hc2)
          (cacheSame_trans (cacheSame_mono (by decide) hc3)
            (cacheSame_mono (by decide) hc4)))
    have habs : lookA
        (n_get (cards_get (offsets_get (id2i_get s).2).2).2).2.cache "sparse"
        = none := by
      rw [hchain "sparse" (by decide), heq]
    exact ⟨gainOnly_trans hg1 (gainOnly_trans hg2 (gainOnly_trans hg3
        (gainOnly_trans hg4 (gainOnly_updA_absent habs)))),
      cacheSame_updA_cons hchain⟩

theorem s0_get_frame (s : WState) :
    gainOnly s.cache (s0_get s).2.cache ∧
    cacheSame ["s0", "sparse", "id2i", "neighbors_0", "cardinalities", "n"]
      s.cache (s0_get s).2.cache := by
  unfold s0_get
  split
  · exact ⟨gainOnly_refl _, cacheSame_refl _ _⟩
  · exact ⟨gainOnly_refl _, cacheSame_refl _ _⟩
  · rename_i heq
    obtain ⟨hg, hcs⟩ := sparse_get_frame s
    have habs : lookA (sparse_get s).2.cache "s0" = none := by
      rw [hcs "s0" (by decide), heq]
    exact ⟨gainOnly_trans hg (gainOnly_updA_absent habs),
      cacheSame_updA_cons hcs⟩

theorem s1_get_frame (s : WState) :
    gainOnly s.cache (s1_get s).2.cache ∧
    cacheSame ["s1", "sparse", "id2i", "neighbors_0", "cardinalities", "n"]
      s.cache (s1_get s).2.cache := by
  unfold s1_get
  split
  · exact ⟨gainOnly_refl _, cacheSame_refl _ _⟩
  · exact ⟨gainOnly_refl _, cacheSame_refl _ _⟩
  · rename_i heq
    obtain ⟨hg, hcs⟩ := sparse_get_frame s
    have habs : lookA (sparse_get s).2.cache "s1" = none := by
      rw [hcs "s1" (by decide), heq]
    exact ⟨gainOnly_trans hg (gainOnly_updA_absent habs),
      cacheSame_updA_cons hcs⟩

theorem s2array_get_frame (s : WState) :
    gainOnly s.cache (s2array_get s).2.cache ∧
    cacheSame
      ["s2array", "sparse", "id2i", "neighbors_0", "cardinalities", "n"]
      s.cache (s2array_get s).2.cache := by
  unfold s2array_get
  split
  · exact ⟨gainOnly_refl _, cacheSame_refl _ _⟩
  · exact ⟨gainOnly_refl _, cacheSame_refl _ _⟩
  · rename_i heq
    obtain ⟨hg, hcs⟩ := sparse_get_frame s
    have habs : lookA (sparse_get s).2.cache "s2array" = none := by
      rw [hcs "s2array" (by decide), heq]
    exact ⟨gainOnly_trans hg (gainOnly_updA_absent habs),
      cacheSame_updA_cons hcs⟩

theorem s2_get_frame (s : WState) :
    gainOnly s.cache (s2_get s).2.cache ∧
    cacheSame
      ["s2", "s2array", "sparse", "id2i", "neighbors_0", "cardinalities", "n"]
      s.cache (s2_get s).2.cache := by
  unfold s2_get
  split
  · exact ⟨gainOnly_refl _, cacheSame_refl _ _⟩
  · exact ⟨gainOnly_refl _, cacheSame_refl _ _⟩
  · rename_i heq
    obtain ⟨hg, hcs⟩ := s2array_get_frame s
    have habs : lookA (s2array_get s).2.cache "s2" = none := by
      rw [hcs "s2" (by decide), heq]
    exact ⟨gainOnly_trans hg (gainOnly_updA_absent habs),
      cacheSame_updA_cons hcs⟩

theorem diagWtW_get_frame (s : WState) :
    gainOnly s.cache (diagWtW_get s).2.cache ∧
    cacheSame
      ["diagWtW", "sparse", "id2i", "neighbors_0", "cardinalities", "n"]
      s.cache (diagWtW_get s).2.cache := by
  unfold diagWtW_get
  split
  · exact ⟨gainOnly_refl _, cacheSame_refl _ _⟩
  · exact ⟨gainOnly_refl _, cacheSame_refl _ _⟩
  · rename_i heq
    obtain ⟨hg, hcs⟩ := sparse_get_frame s
    have habs : lookA (sparse_get s).2.cache "diagWtW" = none := by
      rw [hcs "diagWtW" (by decide), heq]
    exact ⟨gainOnly_trans hg (gainOnly_updA_absent habs),
      cacheSame_updA_cons hcs⟩

theorem trcWtW_get_frame (s : WState) :
    gainOnly s.cache (trcWtW_get s).2.cache ∧
    cacheSame ["trcWtW", "diagWtW", "sparse", "id2i", "neighbors_0",
      "cardinalities", "n"] s.cache (trcWtW_get s).2.cache := by
  unfold trcWtW_get
  split
  · exact ⟨gainOnly_refl _, cacheSame_refl _ _⟩
  · exact ⟨gainOnly_refl _, cacheSame_refl _ _⟩
  · rename_i heq
    obtain ⟨hg, hcs⟩ := diagWtW_get_frame s
    have habs : lookA (diagWtW_get s).2.cache "trcWtW" = none := by
      rw [hcs "trcWtW" (by decide), heq]
    exact ⟨gainOnly_trans hg (gainOnly_updA_absent habs),
      cacheSame_updA_cons hcs⟩

theorem diagWtW_WW_get_frame (s : WState) :
    gainOnly s.cache (diagWtW_WW_get s).2.cache ∧
    cacheSame
      ["diagWtW_WW", "sparse", "id2i", "neighbors_0", "cardinalities", "n"]
      s.cache (diagWtW_WW_get s).2.cache := by
  unfold diagWtW_WW_get
  split
  · exact ⟨gainOnly_refl _, cacheSame_refl _ _⟩
  · exact ⟨gainOnly_refl _, cacheSame_refl _ _⟩
  · rename_i heq
    obtain ⟨hg, hcs⟩ := sparse_get_frame s
    have habs : lookA (sparse_get s).2.cache "diagWtW_WW" = none := by
      rw [hcs "diagWtW_WW" (by decide), heq]
    exact ⟨gainOnly_trans hg (gainOnly_updA_absent habs),
      cacheSame_updA_cons hcs⟩

theorem trcWtW_WW_get_frame (s : WState) :
    gainOnly s.cache (trcWtW_WW_get s).2.cache ∧
    cacheSame ["trcWtW_WW", "diagWtW_WW", "sparse", "id2i", "neighbors_0",
      "cardinalities", "n"] s.cache (trcWtW_WW_get s).2.cache := by
  unfold trcWtW_WW_get
  split
  · exact ⟨gainOnly_refl _, cacheSame_refl _ _⟩
  · exact ⟨gainOnly_refl _, cacheSame_refl _ _⟩
  · rename_i heq
    obtain ⟨hg, hcs⟩ := diagWtW_WW_get_frame s
    have habs : lookA (diagWtW_WW_get s).2.cache "trcWtW_WW" = none := by
      rw [hcs "trcWtW_WW" (by decide), heq]
    exact ⟨gainOnly_trans hg (gainOnly_updA_absent habs),
      cacheSame_updA_cons hcs⟩

theorem pct_get_frame (s : WState) :
    gainOnly s.cache (pct_get s).2.cache ∧
    cacheSame
      ["pct_nonzero", "sparse", "id2i", "neighbors_0", "cardinalities", "n"]
      s.cache (pct_get s).2.cache := by
  unfold pct_get
  split
  · exact ⟨gainOnly_refl _, cacheSame_refl _ _⟩
  · exact ⟨gainOnly_refl _, cacheSame_refl _ _⟩
  · rename_i heq
    obtain ⟨hg, hcs⟩ := sparse_get_frame s
    have habs : lookA (sparse_get s).2.cache "pct_nonzero" = none := by
      rw [hcs "pct_nonzero" (by decide), heq]
    exact ⟨gainOnly_trans hg (gainOnly_updA_absent habs),
      cacheSame_updA_cons hcs⟩

theorem nonzero_get_frame (s : WState) :
    gainOnly s.cache (nonzero_get s).2.cache ∧
    cacheSame
      ["nonzero", "sparse", "id2i", "neighbors_0", "cardinalities", "n"]
      s.cache (nonzero_get s).2.cache := by
  unfold nonzero_get
  split
  · exact ⟨gainOnly_refl _, cacheSame_refl _ _⟩
  · exact ⟨gainOnly_refl _, cacheSame_refl _ _⟩
  · rename_i heq
    obtain ⟨hg, hcs⟩ := sparse_get_frame s
    have habs : lookA (sparse_get s).2.cache "nonzero" = none := by
      rw [hcs "nonzero" (by decide), heq]
    exact ⟨gainOnly_trans hg (gainOnly_updA_absent habs),
      cacheSame_updA_cons hcs⟩

theorem max_get_frame (s : WState) :
    gainOnly s.cache (max_get s).2.cache ∧
    cacheSame ["max_neighbors", "cardinalities"]
      s.cache (max_get s).2.cache := by
  unfold max_get
  split
  · exact ⟨gainOnly_refl _, cacheSame_refl _ _⟩
  · exact ⟨gainOnly_refl _, cacheSame_refl _ _⟩
  · rename_i heq
    obtain ⟨hg, hcs⟩ := cards_get_frame s
    have habs : lookA (cards_get s).2.cache "max_neighbors" = none := by
      rw [hcs "max_neighbors" (by decide), heq]
    exact ⟨gainOnly_trans hg (gainOnly_updA_absent habs),
      cacheSame_updA_cons hcs⟩

theorem min_get_frame (s : WState) :
    gainOnly s.cache (min_get s).2.cache ∧
    cacheSame ["min_neighbors", "cardinalities"]
      s.cache (min_get s).2.cache := by
  unfold min_get
  split
  · exact ⟨gainOnly_refl _, cacheSame_refl _ _⟩
  · exact ⟨gainOnly_refl _, cacheSame_refl _ _⟩
  · rename_i heq
    obtain ⟨hg, hcs⟩ := cards_get_frame s
    have habs : lookA (cards_get s).2.cache "min_neighbors" = none := by
      rw [hcs "min_neighbors" (by decide), heq]
    exact ⟨gainOnly_trans hg (gainOnly_updA_absent habs),
      cacheSame_updA_cons hcs⟩

theorem sd_get_frame (nstd : List ℕ → ℚ) (s : WState) :
    gainOnly s.cache (sd_get nstd s).2.cache ∧
    cacheSame ["sd", "cardinalities"] s.cache (sd_get nstd s).2.cache := by
  unfold sd_get
  split
  · exact ⟨gainOnly_refl _, cacheSame_refl _ _⟩
  · exact ⟨gainOnly_refl _, cacheSame_refl _ _⟩
  · rename_i heq
    obtain ⟨hg, hcs⟩ := cards_get_frame s
    have habs : lookA (cards_get s).2.cache "sd" = none := by
      rw [hcs "sd" (by decide), heq]
    exact ⟨gainOnly_trans hg (gainOnly_updA_absent habs),
      cacheSame_updA_cons hcs⟩

theorem islands_get_frame (s : WState) :
    gainOnly s.cache (islands_get s).2.cache ∧
    cacheSame ["islands", "cardinalities"]
      s.cache (islands_get s).2.cache := by
  unfold islands_get
  split
  · exact ⟨gainOnly_refl _, cacheSame_refl _ _⟩
  · exact ⟨gainOnly_refl _, cacheSame_refl _ _⟩
  · rename_i heq
    obtain ⟨hg, hcs⟩ := cards_get_frame s
    have habs : lookA (cards_get s).2.cache "islands" = none := by
      rw [hcs "islands" (by decide), heq]
    exact ⟨gainOnly_trans hg (gainOnly_updA_absent habs),
      cacheSame_updA_cons hcs⟩

theorem histogram_get_frame (s : WState) :
    gainOnly s.cache (histogram_get s).2.cache ∧
    cacheSame ["histogram", "max_neighbors", "min_neighbors", "cardinalities"]
      s.cache (histogram_get s).2.cache := by
  unfold histogram_get
  split
  · exact ⟨gainOnly_refl _, cacheSame_refl _ _⟩
  · exact ⟨gainOnly_refl _, cacheSame_refl _ _⟩
  · rename_i heq
    obtain ⟨hg1, hc1⟩ := cards_get_frame s
    obtain ⟨hg2, hc2⟩ := min_get_frame (cards_get s).2
    obtain ⟨hg3, hc3⟩ := max_get_frame (min_get (cards_get s).2).2
    have hchain : cacheSame ["max_neighbors", "min_neighbors", "cardinalities"]
        s.cache (max_get (min_get (cards_get s).2).2).2.cache :=
      cacheSame_trans (cacheSame_mono (by decide) hc1)
        (cacheSame_trans (cacheSame_mono (by decide) hc2)
          (cacheSame_mono (by decide) hc3))
    have habs : lookA (max_get (min_get (cards_get s).2).2).2.cache "histogram"
        = none := by
      rw [hchain "histogram" (by decide), heq]
    exact ⟨gainOnly_trans hg1 (gainOnly_trans hg2 (gainOnly_trans hg3
        (gainOnly_updA_absent habs))),
      cacheSame_updA_cons hchain⟩

theorem asymmetry_fn_frame (s : WState) :
    gainOnly s.cache (asymmetry_fn s).2.cache ∧
    cacheSame ["sparse", "id2i", "neighbors_0", "cardinalities", "n"]
      s.cache (asymmetry_fn s).2.cache := by
  unfold asymmetry_fn
  exact sparse_get_frame s

theorem asym_get_frame (s : WState) :
    gainOnly s.cache (asym_get s).2.cache ∧
    cacheSame
      ["asymmetries", "sparse", "id2i", "neighbors_0", "cardinalities", "n"]
      s.cache (asym_get s).2.cache := by
  unfold asym_get
  split
  · exact ⟨gainOnly_refl _, cacheSame_refl _ _⟩
  · exact ⟨gainOnly_refl _, cacheSame_refl _ _⟩
  · rename_i heq
    obtain ⟨hg, hcs⟩ := asymmetry_fn_frame s
    have habs : lookA (asymmetry_fn s).2.cache "asymmetries" = none := by
      rw [hcs "asymmetries" (by decide), heq]
    exact ⟨gainOnly_trans hg (gainOnly_updA_absent habs),
      cacheSame_updA_cons hcs⟩

/-- The mis-keyed `diagW2` getter: under a consistent cache the
(`"diagw2"`) check never hits, the diagonal is recomputed from the
current structure, and the store under `"diagW2"` can only rewrite an
already-consistent binding with the same value. -/
theorem diagW2_get_frame (s : WState) (h : CacheOK s) :
    (diagW2_get s).1 = diagW2v s.neighbors.length (buildEntriesVal s) ∧
    gainOnly s.cache (diagW2_get s).2.cache ∧
    cacheSame
      ["diagW2", "sparse", "id2i", "neighbors_0", "cardinalities", "n"]
      s.cache (diagW2_get s).2.cache := by
  unfold diagW2_get
  split
  · rename_i heq
    rw [h.2.1] at heq
    exact Option.noConfusion heq
  · obtain ⟨hv, hok⟩ := sparse_get_ok s h
    obtain ⟨hg, hcs⟩ := sparse_get_frame s
    obtain ⟨e1, e2, -, -, e5, -⟩ := sparse_get_structEq s
    obtain ⟨-, -, hb⟩ := vals_congr e1 e2 e5
    dsimp only
    have hveq : CVal.rlist (diagW2v (sparse_get s).1.1 (sparse_get s).1.2)
        = CVal.rlist (diagW2v (sparse_get s).2.neighbors.length
            (buildEntriesVal (sparse_get s).2)) := by
      rw [hv, hb, e1]
    refine ⟨by rw [hv], ?_, cacheSame_updA_cons hcs⟩
    cases hdw : lookA (sparse_get s).2.cache "diagW2" with
    | none => exact gainOnly_trans hg (gainOnly_updA_absent hdw)
    | some w =>
      have hsp : specCVal (sparse_get s).2 "diagW2"
          = some (CVal.rlist (diagW2v (sparse_get s).2.neighbors.length
              (buildEntriesVal (sparse_get s).2))) := by
        simp [specCVal]
      have hw := hok.2.2 "diagW2" w hdw _ hsp
      exact gainOnly_trans hg (gainOnly_updA_same (by rw [hdw, hw, hveq]))

/-- The mis-keyed `trcW2` getter: the store under `"trcw2"` can only
rewrite an already-consistent binding with the recomputed trace. -/
theorem trcW2_get_frame (s : WState) (h : CacheOK s) :
    gainOnly s.cache (trcW2_get s).2.cache ∧
    cacheSame ["trcw2", "diagW2", "sparse", "id2i", "neighbors_0",
      "cardinalities", "n"] s.cache (trcW2_get s).2.cache := by
  unfold trcW2_get
  split
  · exact ⟨gainOnly_refl _, cacheSame_refl _ _⟩
  · obtain ⟨hv, hg, hcs⟩ := diagW2_get_frame s h
    dsimp only
    refine ⟨?_, cacheSame_updA_cons hcs⟩
    cases hdw : lookA (diagW2_get s).2.cache "trcw2" with
    | none => exact gainOnly_trans hg (gainOnly_updA_absent hdw)
    | some w =>
      have hlift : lookA s.cache "trcw2" = some w := by
        rw [← hcs "trcw2" (by decide), hdw]
      have hsp : specCVal s "trcw2"
          = some (CVal.rat (trcW2v s.neighbors.length
              (buildEntriesVal s))) := by
        simp [specCVal]
      have hw := h.2.2 "trcw2" w hlift _ hsp
      have hveq : CVal.rat (diagW2_get s).1.sum
          = CVal.rat (trcW2v s.neighbors.length (buildEntriesVal s)) := by
        rw [hv]
        rfl
      exact gainOnly_trans hg (gainOnly_updA_same (by rw [hdw, hw, ← hveq]))

/-- The mis-keyed `mean_neighbors` getter: the foreign `"max_neighbors"`
check leaves the state untouched on a hit, and on a miss the store under
`"mean_neighbors"` can only rewrite an already-consistent binding. -/
theorem mean_get_frame (s : WState) (h : CacheOK s) :
    gainOnly s.cache (mean_get s).2.cache ∧
    cacheSame ["mean_neighbors", "cardinalities"]
      s.cache (mean_get s).2.cache := by
  unfold mean_get
  split
  · exact ⟨gainOnly_refl _, cacheSame_refl _ _⟩
  · obtain ⟨hv, hok⟩ := cards_get_ok s h
    obtain ⟨hg, hcs⟩ := cards_get_frame s
    dsimp only
    refine ⟨?_, cacheSame_updA_cons hcs⟩
    cases hdw : lookA (cards_get s).2.cache "mean_neighbors" with
    | none => exact gainOnly_trans hg (gainOnly_updA_absent hdw)
    | some w =>
      have hlift : lookA s.cache "mean_neighbors" = some w := by
        rw [← hcs "mean_neighbors" (by decide), hdw]
      have hsp : specCVal s "mean_neighbors"
          = some (CVal.rat (meanv (cardsVal s))) := by
        simp [specCVal]
      have hw := h.2.2 "mean_neighbors" w hlift _ hsp
      have hveq : CVal.rat (meanv (cards_get s).1)
          = CVal.rat (meanv (cardsVal s)) := by
        rw [hv]
      exact gainOnly_trans hg (gainOnly_updA_same (by rw [hdw, hw, ← hveq]))

theorem c9_wsp_concrete :
    wspS0 (mkWSP 4 [0, 1, 1, 2, 2, 3] [1, 0, 2, 1, 3, 3] []) = 6 ∧
    wspTrcWtW_WW (mkWSP 4 [0, 1, 1, 2, 2, 3] [1, 0, 2, 1, 3, 3] []) = 11 := by
  constructor
  · norm_num [wspS0, mkWSP, s0v, rowSum, matOf, Finset.sum_range_succ]
  · norm_num [wspTrcWtW_WW, wspDiagWtW_WW, mkWSP, diagWtW_WWv, matOf,
      Finset.sum_range_succ, List.range_succ]

/-- C10: every read-only query on a weights container — each
derived-statistic getter (`sparse`, `s0`, `s1`, `s2`, `s2array`,
`trcW2`, `diagW2`, `trcWtW`, `diagWtW`, `trcWtW_WW`, `diagWtW_WW`,
`pct_nonzero`, `nonzero`, `cardinalities`, `max/min/mean_neighbors`,
`sd`, `histogram`, `islands`, `asymmetries`, `id2i`,
`neighbor_offsets`, `n`), the `asymmetry()` method, `__getitem__` and
iteration — leaves the neighbors mapping, the weights mapping, the
observation order and the current transform designation unchanged, and
only lets the cache gain entries: every binding present beforehand is
still present with the same value afterwards.  The hypothesis asks the
starting cache to be consistent with the structure (true of every
reachable state: caches are only ever filled by these getters from a
reset); it is what makes the three mis-keyed getters
(`diagW2`/`trcW2`/`mean_neighbors`), which can rewrite an existing
binding, rewrite it with the value it already holds. -/
theorem c10_read_only_queries_frame (nstd : List ℕ → ℚ) (s : WState)
    (h : CacheOK s) :
    FrameOf s (id2i_get s).2 ∧ FrameOf s (n_get s).2 ∧
    FrameOf s (offsets_get s).2 ∧ FrameOf s (cards_get s).2 ∧
    FrameOf s (sparse_get s).2 ∧ FrameOf s (s0_get s).2 ∧
    FrameOf s (s1_get s).2 ∧ FrameOf s (s2array_get s).2 ∧
    FrameOf s (s2_get s).2 ∧ FrameOf s (diagW2_get s).2 ∧
    FrameOf s (trcW2_get s).2 ∧ FrameOf s (diagWtW_get s).2 ∧
    FrameOf s (trcWtW_get s).2 ∧ FrameOf s (diagWtW_WW_get s).2 ∧
    FrameOf s (trcWtW_WW_get s).2 ∧ FrameOf s (pct_get s).2 ∧
    FrameOf s (nonzero_get s).2 ∧ FrameOf s (max_get s).2 ∧
    FrameOf s (min_get s).2 ∧ FrameOf s (mean_get s).2 ∧
    FrameOf s (sd_get nstd s).2 ∧ FrameOf s (islands_get s).2 ∧
    FrameOf s (histogram_get s).2 ∧ FrameOf s (asymmetry_fn s).2 ∧
    FrameOf s (asym_get s).2 ∧
    (∀ key, (getitem_get s key).2 = s) ∧ (iter_get s).2 = s :=
  ⟨⟨coreEq_of_structEq (id2i_get_structEq s), (id2i_get_frame s).1⟩,
    ⟨coreEq_of_structEq (n_get_structEq s), (n_get_frame s).1⟩,
    ⟨coreEq_of_structEq (offsets_get_structEq s), (offsets_get_frame s).1⟩,
    ⟨coreEq_of_structEq (cards_get_structEq s), (cards_get_frame s).1⟩,
    ⟨coreEq_of_structEq (sparse_get_structEq s), (sparse_get_frame s).1⟩,
    ⟨coreEq_of_structEq (s0_get_structEq s), (s0_get_frame s).1⟩,
    ⟨coreEq_of_structEq (s1_get_structEq s), (s1_get_frame s).1⟩,
    ⟨coreEq_of_structEq (s2array_get_structEq s), (s2array_get_frame s).1⟩,
    ⟨coreEq_of_structEq (s2_get_structEq s), (s2_get_frame s).1⟩,
    ⟨coreEq_of_structEq (diagW2_get_structEq s), (diagW2_get_frame s h).2.1⟩,
    ⟨coreEq_of_structEq (trcW2_get_structEq s), (trcW2_get_frame s h).1⟩,
    ⟨coreEq_of_structEq (diagWtW_get_structEq s), (diagWtW_get_frame s).1⟩,
    ⟨coreEq_of_structEq (trcWtW_get_structEq s), (trcWtW_get_frame s).1⟩,
    ⟨coreEq_of_structEq (diagWtW_WW_get_structEq s),
      (diagWtW_WW_get_frame s).1⟩,
    ⟨coreEq_of_structEq (trcWtW_WW_get_structEq s),
      (trcWtW_WW_get_frame s).1⟩,
    ⟨coreEq_of_structEq (pct_get_structEq s), (pct_get_frame s).1⟩,
    ⟨coreEq_of_structEq (nonzero_get_structEq s), (nonzero_get_frame s).1⟩,
    ⟨coreEq_of_structEq (max_get_structEq s), (max_get_frame s).1⟩,
    ⟨coreEq_of_structEq (min_get_structEq s), (min_get_frame s).1⟩,
    ⟨coreEq_of_structEq (mean_get_structEq s), (mean_get_frame s h).1⟩,
    ⟨coreEq_of_structEq (sd_get_structEq nstd s), (sd_get_frame nstd s).1⟩,
    ⟨coreEq_of_structEq (islands_get_structEq s), (islands_get_frame s).1⟩,
    ⟨coreEq_of_structEq (histogram_get_structEq s),
      (histogram_get_frame s).1⟩,
    ⟨coreEq_of_structEq (asymmetry_fn_structEq s), (asymmetry_fn_frame s).1⟩,
    ⟨coreEq_of_structEq (asym_get_structEq s), (asym_get_frame s).1⟩,
    fun _ => rfl, rfl⟩

/-- Witness for C10 at a concrete two-unit container fresh from
construction (whose cache is empty, hence consistent). -/
theorem c10_read_only_queries_frame_witness :
    CacheOK (mkW [(0, [1]), (1, [0])] none none) ∧
    FrameOf (mkW [(0, [1]), (1, [0])] none none)
      (s0_get (mkW [(0, [1]), (1, [0])] none none)).2 :=
  ⟨cacheOK_of_empty rfl,
    (c10_read_only_queries_frame (fun _ => 0)
      (mkW [(0, [1]), (1, [0])] none none)
      (cacheOK_of_empty rfl)).2.2.2.2.2.1⟩

end PW
